import Mathlib

/-!
Verification of the lrucache library (lock-based variant, `lrucache.go`).

The Go code keeps a map from string keys to heap-allocated `cacheEntry`
nodes which are simultaneously threaded into a doubly linked recency list
through `older`/`younger` pointers; `mostRU`/`leastRU` point at the ends.
Since every pointer dereference in the code reaches a node through either
the map or the list ends, and a node is identified by its immutable `id`
field, we embed the heap as an association list from keys to entries and
pointers as `Option String` (the id of the node pointed to).  A nil
pointer dereference (Go panic) is modelled by returning `none`.

Values (`Cacheable`) are modelled by a record carrying a numeric tag, the
optional `Size()` implementation (absent means the default size 1) and
whether the value implements `NotifyPurge`.  Invocations of `OnPurge` are
recorded in an event log carried in the cache state.
-/

namespace LruCache

/-- Reasons for a cached element to be deleted from the cache
(`PurgeReason` in the source). -/
inductive PurgeReason where
  | CACHEFULL
  | EXPLICITDELETE
  | KEYCOLLISION
deriving DecidableEq

/-- A `Cacheable` value: `tag` identifies the concrete object, `sizeImpl`
is the result of `Size()` when the value implements `SizeAware`, and
`notify` records whether it implements `NotifyPurge`. -/
structure Val where
  tag : Nat
  sizeImpl : Option Int
  notify : Bool
deriving DecidableEq

/-- `getSize` from the source: `Size()` if implemented, otherwise 1. -/
def getSize (x : Val) : Int :=
  match x.sizeImpl with
  | some s => s
  | none => 1

/-- `cacheEntry` from the source: payload, its own key, and the two
doubly-linked-list pointers (modelled as keys of the pointed-to nodes). -/
structure Entry where
  payload : Val
  id : String
  older : Option String
  younger : Option String
deriving DecidableEq

/-- Assignment to the `younger` field of a node. -/
def withYounger (y : Option String) (e : Entry) : Entry :=
  { e with younger := y }

/-- Assignment to the `older` field of a node. -/
def withOlder (o : Option String) (e : Entry) : Entry :=
  { e with older := o }

/-- Go map lookup `m[k]` on the association-list heap. -/
def mfind {β : Type} (m : List (String × β)) (k : String) : Option β :=
  match m with
  | [] => none
  | (k2, e) :: rest => if k2 = k then some e else mfind rest k

/-- Go map assignment `m[k] = e` (replaces an existing binding). -/
def mput {β : Type} (m : List (String × β)) (k : String) (e : β) :
    List (String × β) :=
  match m with
  | [] => [(k, e)]
  | (k2, e2) :: rest => if k2 = k then (k, e) :: rest else (k2, e2) :: mput rest k e

/-- Go `delete(m, k)`. -/
def mdel {β : Type} (m : List (String × β)) (k : String) : List (String × β) :=
  match m with
  | [] => []
  | (k2, e2) :: rest => if k2 = k then rest else (k2, e2) :: mdel rest k

/-- In-place mutation of the node stored under `k` (a pointer write such
as `e.older.younger = ...` in the source). -/
def mupd {β : Type} (m : List (String × β)) (k : String) (f : β → β) :
    List (String × β) :=
  match m with
  | [] => []
  | (k2, e2) :: rest => if k2 = k then (k2, f e2) :: rest else (k2, e2) :: mupd rest k f

/-- The `Cache` struct: current size, maximum size, the entry map and the
two recency-list ends.  `purgeLog` records every `OnPurge` invocation
(tag of the notified value and the reason), in order. -/
structure Cache where
  size : Int
  maxSize : Int
  entries : List (String × Entry)
  mostRU : Option String
  leastRU : Option String
  purgeLog : List (Nat × PurgeReason)
deriving DecidableEq

/-- `safeOnPurge` from the source: invoke `OnPurge` only when the value
implements `NotifyPurge`; the invocation is recorded in the log. -/
def safeOnPurge (c : Cache) (v : Val) (why : PurgeReason) : Cache :=
  if v.notify then { c with purgeLog := c.purgeLog ++ [(v.tag, why)] } else c

/-- `removeEntry` from the source: delete from the map, splice the node
out of the doubly linked list (falling back to the list ends when a
pointer is nil), subtract the size. -/
def removeEntry (c : Cache) (e : Entry) : Cache :=
  let c1 := { c with entries := mdel c.entries e.id }
  let c2 :=
    match e.older with
    | none => { c1 with leastRU := e.younger }
    | some p => { c1 with entries := mupd c1.entries p (withYounger e.younger) }
  let c3 :=
    match e.younger with
    | none => { c2 with mostRU := e.older }
    | some n => { c2 with entries := mupd c2.entries n (withOlder e.older) }
  { c3 with size := c3.size - getSize e.payload }

/-- `purgeLRU` from the source: notify and remove the least recently used
entry.  Dereferencing a nil `leastRU` is a Go panic, modelled as `none`. -/
def purgeLRU (c : Cache) : Option Cache :=
  match c.leastRU with
  | none => none
  | some k =>
    match mfind c.entries k with
    | none => none
    | some e => some (removeEntry (safeOnPurge c e.payload .CACHEFULL) e)

/-- The loop body of `trimCache`, with explicit fuel.  The Go loop either
terminates (each iteration removes one map entry), or panics inside
`purgeLRU`; exhausted fuel likewise yields `none`. -/
def trimLoop (fuel : Nat) (c : Cache) : Option Cache :=
  match fuel with
  | 0 => none
  | fuel + 1 =>
    if c.size > c.maxSize then
      match purgeLRU c with
      | none => none
      | some c2 => trimLoop fuel c2
    else
      some c

/-- `trimCache` from the source: no-op when `maxSize <= 0`, otherwise
purge least-recently-used entries while `size > maxSize`. -/
def trimCache (c : Cache) : Option Cache :=
  if c.maxSize ≤ 0 then some c else trimLoop (c.entries.length + 1) c

/-- `directSet` from the source.  An existing entry is notified with
KEYCOLLISION and removed; the new node is put in the map; a zero-size
value is not linked into the recency list and does not trigger a trim;
otherwise the node is appended at the most-recently-used end, the size is
increased and the cache trimmed. -/
def directSet (c : Cache) (id : String) (payload : Val) : Option Cache :=
  let c1 :=
    match mfind c.entries id with
    | some old => removeEntry (safeOnPurge c old.payload .KEYCOLLISION) old
    | none => c
  let e : Entry := { payload := payload, id := id, older := none, younger := none }
  let c2 := { c1 with entries := mput c1.entries id e }
  let size := getSize payload
  if size = 0 then
    some c2
  else
    match c2.leastRU with
    | none =>
      let c3 := { c2 with leastRU := some id, mostRU := some id }
      trimCache { c3 with size := c3.size + size }
    | some _ =>
      match c2.mostRU with
      | none => none
      | some m =>
        let c3 := { c2 with entries := mupd c2.entries m (withYounger (some id)) }
        let c4 := { c3 with entries := mupd c3.entries id (withOlder (some m)) }
        let c5 := { c4 with mostRU := some id }
        trimCache { c5 with size := c5.size + size }

/-- Errors returned by `Get`: the distinguished `ErrNotFound`, or an
application error produced by a miss handler. -/
inductive CError where
  | errNotFound
  | custom (n : Nat)
deriving DecidableEq

/-- `OnMissHandler` from the source: produces a value or an error (or
both, or neither - both slots are independent in Go). -/
def Handler : Type := String → Option Val × Option CError

/-- `handleCacheMiss` from the source: call the handler if one is
installed; on a nil error and non-nil value store the value via
`directSet`; a nil value with nil error reports `ErrNotFound`. -/
def handleCacheMiss (onMiss : Option Handler) (c : Cache) (id : String) :
    Option (Cache × Option Val × Option CError) :=
  match onMiss with
  | none => some (c, none, some .errNotFound)
  | some f =>
    match f id with
    | (val, none) =>
      match val with
      | some v =>
        match directSet c id v with
        | none => none
        | some c2 => some (c2, some v, none)
      | none => some (c, none, some .errNotFound)
    | (val, some e) => some (c, val, some e)

/-- `Set` from the source (the lock is the serialization discipline;
sequentially it is just `directSet`).  The nil-payload panic cannot arise
here because `Val` is not nullable. -/
def Set (c : Cache) (id : String) (p : Val) : Option Cache :=
  directSet c id p

/-- `Get` from the source.  On a hit the entry is spliced to the
most-recently-used end of the list unless it is already youngest; on a
miss `handleCacheMiss` runs.  The write `e.older.younger = e` at the end
of the splice dereferences the previous `mostRU`, hence the `none` case. -/
def Get (onMiss : Option Handler) (c : Cache) (id : String) :
    Option (Cache × Option Val × Option CError) :=
  match mfind c.entries id with
  | none => handleCacheMiss onMiss c id
  | some e =>
    if e.younger = none then
      some (c, some e.payload, none)
    else
      let c1 :=
        match e.older with
        | some p => { c with entries := mupd c.entries p (withYounger e.younger) }
        | none => { c with leastRU := e.younger }
      let c2 :=
        match e.younger with
        | some n => { c1 with entries := mupd c1.entries n (withOlder e.older) }
        | none => c1
      match c2.mostRU with
      | none => none
      | some m =>
        let c3 := { c2 with entries := mupd c2.entries id (withOlder (some m)) }
        let c4 := { c3 with mostRU := some id }
        let c5 := { c4 with entries := mupd c4.entries id (withYounger none) }
        let c6 := { c5 with entries := mupd c5.entries m (withYounger (some id)) }
        some (c6, some e.payload, none)

/-- `Delete` from the source: when present, notify with EXPLICITDELETE;
the entry is removed only when its size is nonzero. -/
def Delete (c : Cache) (id : String) : Cache :=
  match mfind c.entries id with
  | none => c
  | some e =>
    let c2 := safeOnPurge c e.payload .EXPLICITDELETE
    if getSize e.payload ≠ 0 then removeEntry c2 e else c2

/-- `MaxSize` from the source: update the maximum and trim. -/
def MaxSize (c : Cache) (i : Int) : Option Cache :=
  trimCache { c with maxSize := i }

/-- `New` from the source: a fresh cache with the given maximum size. -/
def New (maxsize : Int) : Cache :=
  { size := 0, maxSize := maxsize, entries := [], mostRU := none,
    leastRU := none, purgeLog := [] }

/-! ## Specification-side definitions

The recency list is specified abstractly as a list of keys ordered from
least to most recently used; `chainSeg` states that a segment of keys is
correctly doubly linked between an `older` neighbour `prev` and a
`younger` neighbour `next`. -/

/-- The younger neighbour of the last element before `rest`: the head of
`rest` when it is nonempty, otherwise the continuation `next`. -/
def nextOf (rest : List String) (next : Option String) : Option String :=
  match rest with
  | [] => next
  | x :: _ => some x

/-- The id of the last element of `l`, or `p` when `l` is empty. -/
def endOf (p : Option String) (l : List String) : Option String :=
  match l with
  | [] => p
  | a :: rest => endOf (some a) rest

/-- The keys `l` form a correctly linked doubly-linked-list segment in
the heap `m`: each key is mapped, its `older` pointer is its predecessor
(starting from `prev`) and its `younger` pointer its successor (ending
with `next`). -/
def chainSeg (m : List (String × Entry)) :
    Option String → List String → Option String → Bool
  | _, [], _ => true
  | prev, k :: rest, next =>
    match mfind m k with
    | none => false
    | some e =>
      e.older == prev && e.younger == nextOf rest next &&
        chainSeg m (some k) rest next

/-- The cache's recency list is exactly `l` (least recently used first):
the chain is correctly linked and the two end pointers agree with `l`. -/
def representsB (c : Cache) (l : List String) : Bool :=
  chainSeg c.entries none l none && c.leastRU == l.head? &&
    c.mostRU == endOf none l

/-- Sum of the sizes of all entries in the map. -/
def sumSizes (m : List (String × Entry)) : Int :=
  match m with
  | [] => 0
  | p :: rest => getSize p.2.payload + sumSizes rest

/-- Every mapped entry participates in the recency list exactly when its
size is nonzero (zero-size entries are tracked in the map only). -/
def memberCond (m : List (String × Entry)) (l : List String) : Bool :=
  m.all fun p => if getSize p.2.payload == 0 then !(l.contains p.1) else l.contains p.1

/-- The store invariant relative to an explicit recency list `l`: the
linked list is exactly `l` without duplicates, the map keys are unique
and each node records its own key, nonzero-size entries are exactly the
listed ones, and `size` is the sum of all entry sizes. -/
def storeInvL (c : Cache) (l : List String) : Bool :=
  representsB c l && decide l.Nodup &&
    decide (c.entries.map Prod.fst).Nodup &&
    (c.entries.all fun p => p.2.id == p.1) &&
    memberCond c.entries l &&
    c.size == sumSizes c.entries

/-- Walk the recency list forward from a node, with fuel; `none` on a
dangling pointer or a cycle. -/
def chainWalk (m : List (String × Entry)) :
    Option String → Nat → Option (List String)
  | none, _ => some []
  | some _, 0 => none
  | some k, fuel + 1 =>
    match mfind m k with
    | none => none
    | some e =>
      match chainWalk m e.younger fuel with
      | none => none
      | some rest => some (k :: rest)

/-- The store invariant of claim C1, as a closed predicate: the recency
list reconstructed from `leastRU` satisfies `storeInvL`. -/
def storeInvB (c : Cache) : Bool :=
  match chainWalk c.entries c.leastRU (c.entries.length + 1) with
  | none => false
  | some l => storeInvL c l

/-- The public mutating operations of claim C4. -/
inductive Op where
  | set (id : String) (v : Val)
  | del (id : String)
  | maxSize (i : Int)

/-- Execute one public operation (`none` = the operation panics). -/
def applyOp (c : Cache) : Op → Option Cache
  | .set id v => Set c id v
  | .del id => some (Delete c id)
  | .maxSize i => MaxSize c i

/-- Execute a sequence of public operations. -/
def runOps (c : Cache) : List Op → Option Cache
  | [] => some c
  | op :: rest =>
    match applyOp c op with
    | none => none
    | some c2 => runOps c2 rest

/-- Every value stored by the operation sequence reports a nonnegative
size. -/
def opsNonneg (ops : List Op) : Bool :=
  ops.all fun op =>
    match op with
    | .set _ v => decide (0 ≤ getSize v)
    | _ => true

/-- All entry sizes in the map are nonnegative. -/
def entriesNonneg (c : Cache) : Bool :=
  c.entries.all fun p => decide (0 ≤ getSize p.2.payload)

/-! ## Lemmas about the heap operations -/

theorem mfind_mput_self {β : Type} (m : List (String × β)) (k : String) (e : β) :
    mfind (mput m k e) k = some e := by
  induction m with
  | nil => simp [mput, mfind]
  | cons p rest ih =>
    by_cases h : p.1 = k
    · simp [mput, mfind, h]
    · simp [mput, mfind, h, ih]

theorem mfind_mput_ne {β : Type} (m : List (String × β)) (k k2 : String) (e : β)
    (h : k2 ≠ k) : mfind (mput m k e) k2 = mfind m k2 := by
  have h2 : ¬ k = k2 := fun hh => h hh.symm
  induction m with
  | nil => simp [mput, mfind, h2]
  | cons p rest ih =>
    by_cases hp : p.1 = k
    · subst hp
      simp [mput, mfind, h2]
    · by_cases hp2 : p.1 = k2
      · simp [mput, mfind, hp, hp2, h]
      · simp [mput, mfind, hp, hp2, ih]

theorem mfind_mupd_self {β : Type} (m : List (String × β)) (k : String) (f : β → β) :
    mfind (mupd m k f) k = (mfind m k).map f := by
  induction m with
  | nil => simp [mupd, mfind]
  | cons p rest ih =>
    by_cases h : p.1 = k
    · simp [mupd, mfind, h]
    · simp [mupd, mfind, h, ih]

theorem mfind_mupd_ne {β : Type} (m : List (String × β)) (k k2 : String) (f : β → β)
    (h : k2 ≠ k) : mfind (mupd m k f) k2 = mfind m k2 := by
  have h2 : ¬ k = k2 := fun hh => h hh.symm
  induction m with
  | nil => simp [mupd, mfind]
  | cons p rest ih =>
    by_cases hp : p.1 = k
    · subst hp
      simp [mupd, mfind, h2]
    · by_cases hp2 : p.1 = k2
      · simp [mupd, mfind, hp, hp2, h]
      · simp [mupd, mfind, hp, hp2, ih]

theorem mfind_mdel_ne {β : Type} (m : List (String × β)) (k k2 : String)
    (h : k2 ≠ k) : mfind (mdel m k) k2 = mfind m k2 := by
  have h2 : ¬ k = k2 := fun hh => h hh.symm
  induction m with
  | nil => simp [mdel, mfind]
  | cons p rest ih =>
    by_cases hp : p.1 = k
    · subst hp
      simp [mdel, mfind, h2]
    · by_cases hp2 : p.1 = k2
      · simp [mdel, mfind, hp, hp2, h]
      · simp [mdel, mfind, hp, hp2, ih]

theorem mdel_length {β : Type} (m : List (String × β)) (k : String) (e : β)
    (h : mfind m k = some e) : (mdel m k).length + 1 = m.length := by
  induction m with
  | nil => simp [mfind] at h
  | cons p rest ih =>
    by_cases hp : p.1 = k
    · simp [mdel, hp]
    · simp [mfind, hp] at h
      simp [mdel, hp, ih h]

theorem mupd_length {β : Type} (m : List (String × β)) (k : String) (f : β → β) :
    (mupd m k f).length = m.length := by
  induction m with
  | nil => simp [mupd]
  | cons p rest ih =>
    by_cases hp : p.1 = k
    · simp [mupd, hp]
    · simp [mupd, hp, ih]

theorem mupd_keys {β : Type} (m : List (String × β)) (k : String) (f : β → β) :
    (mupd m k f).map Prod.fst = m.map Prod.fst := by
  induction m with
  | nil => simp [mupd]
  | cons p rest ih =>
    by_cases hp : p.1 = k
    · simp [mupd, hp]
    · simp [mupd, hp, ih]

theorem mput_keys_fresh {β : Type} (m : List (String × β)) (k : String) (e : β)
    (h : mfind m k = none) : (mput m k e).map Prod.fst = m.map Prod.fst ++ [k] := by
  induction m with
  | nil => simp [mput]
  | cons p rest ih =>
    by_cases hp : p.1 = k
    · simp [mfind, hp] at h
    · simp [mfind, hp] at h
      simp [mput, hp, ih h]

theorem mput_length_fresh {β : Type} (m : List (String × β)) (k : String) (e : β)
    (h : mfind m k = none) : (mput m k e).length = m.length + 1 := by
  have := congrArg List.length (mput_keys_fresh m k e h)
  simpa using this

theorem mdel_subset {β : Type} (m : List (String × β)) (k : String) (p : String × β)
    (h : p ∈ mdel m k) : p ∈ m := by
  induction m with
  | nil => simp [mdel] at h
  | cons q rest ih =>
    by_cases hq : q.1 = k
    · simp [mdel, hq] at h
      exact List.mem_cons_of_mem q h
    · simp [mdel, hq] at h
      rcases h with h | h
      · exact h ▸ List.mem_cons_self q rest
      · exact List.mem_cons_of_mem q (ih h)

theorem mfind_eq_none_iff {β : Type} (m : List (String × β)) (k : String) :
    mfind m k = none ↔ k ∉ m.map Prod.fst := by
  induction m with
  | nil => simp [mfind]
  | cons p rest ih =>
    by_cases hp : p.1 = k
    · simp [mfind, hp]
    · have h2 : ¬ k = p.1 := fun hh => hp hh.symm
      simp [mfind, hp, ih, h2]

theorem mfind_mem {β : Type} (m : List (String × β)) (k : String) (e : β)
    (h : mfind m k = some e) : (k, e) ∈ m := by
  induction m with
  | nil => simp [mfind] at h
  | cons p rest ih =>
    by_cases hp : p.1 = k
    · simp [mfind, hp] at h
      subst hp
      subst h
      exact List.mem_cons_self _ _
    · simp [mfind, hp] at h
      exact List.mem_cons_of_mem p (ih h)

theorem mdel_key_ne {β : Type} (m : List (String × β)) (k : String) (p : String × β)
    (hnd : (m.map Prod.fst).Nodup) (hmem : p ∈ mdel m k) (hfind : ∃ e, mfind m k = some e) :
    p.1 ≠ k := by
  induction m with
  | nil => simp [mdel] at hmem
  | cons q rest ih =>
    rw [List.map_cons, List.nodup_cons] at hnd
    obtain ⟨hq, hrest⟩ := hnd
    by_cases hqk : q.1 = k
    · simp [mdel, hqk] at hmem
      intro hpk
      exact hq (by
        rw [hqk, ← hpk]
        exact List.mem_map_of_mem Prod.fst hmem)
    · simp [mdel, hqk] at hmem
      rcases hmem with h | h
      · intro hpk
        exact hqk (by rw [← h]; exact hpk)
      · rcases hfind with ⟨e, hfind⟩
        simp [mfind, hqk] at hfind
        exact ih hrest h ⟨e, hfind⟩

theorem keys_nodup_mdel {β : Type} (m : List (String × β)) (k : String)
    (hnd : (m.map Prod.fst).Nodup) : ((mdel m k).map Prod.fst).Nodup := by
  induction m with
  | nil => simp [mdel]
  | cons q rest ih =>
    rw [List.map_cons, List.nodup_cons] at hnd
    obtain ⟨hq, hrest⟩ := hnd
    by_cases hqk : q.1 = k
    · simpa [mdel, hqk] using hrest
    · rw [mdel, if_neg hqk, List.map_cons, List.nodup_cons]
      refine ⟨?_, ih hrest⟩
      intro hmem
      obtain ⟨p, hp, hp1⟩ := List.mem_map.mp hmem
      exact hq (List.mem_map.mpr ⟨p, mdel_subset rest k p hp, hp1⟩)

/-! ## Lemmas about chain segments -/

theorem nextOf_append (A B : List String) (n : Option String) :
    nextOf (A ++ B) n = nextOf A (nextOf B n) := by
  cases A <;> rfl

theorem endOf_append (A B : List String) (p : Option String) :
    endOf p (A ++ B) = endOf (endOf p A) B := by
  induction A generalizing p with
  | nil => rfl
  | cons a rest ih => simp [endOf, ih]

theorem endOf_ne_nil (B : List String) (hB : B ≠ []) (p q : Option String) :
    endOf p B = endOf q B := by
  cases B with
  | nil => exact absurd rfl hB
  | cons b rest => rfl

theorem endOf_concat (p : Option String) (A : List String) (y : String) :
    endOf p (A ++ [y]) = some y := by
  rw [endOf_append]
  rfl

theorem endOf_mem (B : List String) (hB : B ≠ []) (p : Option String) :
    ∃ mId, endOf p B = some mId ∧ mId ∈ B := by
  induction B generalizing p with
  | nil => exact absurd rfl hB
  | cons b rest ih =>
    cases rest with
    | nil => exact ⟨b, rfl, List.mem_singleton.mpr rfl⟩
    | cons r rt =>
      obtain ⟨mId, h1, h2⟩ := ih (List.cons_ne_nil r rt) (some b)
      exact ⟨mId, h1, List.mem_cons_of_mem b h2⟩

theorem chainSeg_single (m : List (String × Entry)) (p n : Option String) (k : String) :
    chainSeg m p [k] n = true ↔
      ∃ e, mfind m k = some e ∧ e.older = p ∧ e.younger = n := by
  cases hf : mfind m k with
  | none => simp [chainSeg, hf]
  | some e => simp [chainSeg, hf, nextOf]

theorem chainSeg_append (m : List (String × Entry)) (A B : List String)
    (p n : Option String) :
    chainSeg m p (A ++ B) n =
      (chainSeg m p A (nextOf B n) && chainSeg m (endOf p A) B n) := by
  induction A generalizing p with
  | nil => simp [chainSeg, endOf]
  | cons a rest ih =>
    simp only [List.cons_append, chainSeg]
    cases hf : mfind m a with
    | none => simp
    | some e =>
      simp only [List.append_eq, nextOf_append, ih]
      simp [endOf, Bool.and_assoc]

theorem chainSeg_congr (m m2 : List (String × Entry)) (L : List String)
    (p n : Option String) (h : ∀ x ∈ L, mfind m2 x = mfind m x) :
    chainSeg m2 p L n = chainSeg m p L n := by
  induction L generalizing p with
  | nil => rfl
  | cons a rest ih =>
    simp only [chainSeg]
    rw [h a (List.mem_cons_self a rest)]
    cases mfind m a with
    | none => rfl
    | some e =>
      rw [ih (some a) fun x hx => h x (List.mem_cons_of_mem a hx)]

theorem chainSeg_mem_isSome (m : List (String × Entry)) (L : List String)
    (p n : Option String) (x : String) (hc : chainSeg m p L n = true) (hx : x ∈ L) :
    (mfind m x).isSome = true := by
  induction L generalizing p with
  | nil => simp at hx
  | cons a rest ih =>
    simp only [chainSeg] at hc
    cases hf : mfind m a with
    | none => rw [hf] at hc; simp at hc
    | some e =>
      rw [hf] at hc
      simp only [Bool.and_eq_true] at hc
      rcases List.mem_cons.mp hx with h | h
      · subst h; simp [hf]
      · exact ih (some a) hc.2 h

theorem chainSeg_set_last_younger (m : List (String × Entry)) (z : Option String) :
    ∀ (L : List String) (p x : Option String) (lastId : String), L.Nodup → L ≠ [] →
      endOf p L = some lastId → chainSeg m p L x = true →
      chainSeg (mupd m lastId (withYounger z)) p L z = true := by
  intro L
  induction L with
  | nil => intro p x lastId _ hne; exact absurd rfl hne
  | cons a rest ih =>
    intro p x lastId hnd hne hend hc
    simp only [chainSeg] at hc
    cases hf : mfind m a with
    | none => rw [hf] at hc; simp at hc
    | some e =>
      rw [hf] at hc
      simp only [Bool.and_eq_true, beq_iff_eq] at hc
      obtain ⟨⟨holder, hyounger⟩, htail⟩ := hc
      cases rest with
      | nil =>
        have hlast : a = lastId := by
          simp [endOf] at hend
          exact hend
        have hfa : mfind m lastId = some e := by
          rw [← hlast]
          exact hf
        have hfind2 : mfind (mupd m lastId (withYounger z)) lastId = some (withYounger z e) := by
          rw [mfind_mupd_self, hfa]
          rfl
        rw [hlast]
        simp only [chainSeg, hfind2]
        simp [withYounger, holder, nextOf]
      | cons r rt =>
        rw [List.nodup_cons] at hnd
        obtain ⟨hamem, hndrest⟩ := hnd
        have hend2 : endOf (some a) (r :: rt) = some lastId := hend
        obtain ⟨mId, hm1, hm2⟩ := endOf_mem (r :: rt) (List.cons_ne_nil r rt) (some a)
        have hlastmem : lastId ∈ r :: rt := by
          rw [hm1] at hend2
          exact (Option.some_inj.mp hend2) ▸ hm2
        have hane : a ≠ lastId := fun hh => hamem (hh ▸ hlastmem)
        simp only [chainSeg]
        rw [mfind_mupd_ne m lastId a (withYounger z) hane, hf]
        simp only [Bool.and_eq_true, beq_iff_eq]
        refine ⟨⟨holder, ?_⟩, ?_⟩
        · simpa [nextOf] using hyounger
        · exact ih (some a) x lastId hndrest (List.cons_ne_nil r rt) hend2 htail

theorem chainSeg_set_head_older (m : List (String × Entry)) (p : Option String)
    (a : String) (T : List String) (q x : Option String) (hmem : a ∉ T)
    (hc : chainSeg m q (a :: T) x = true) :
    chainSeg (mupd m a (withOlder p)) p (a :: T) x = true := by
  simp only [chainSeg] at hc
  cases hf : mfind m a with
  | none => rw [hf] at hc; simp at hc
  | some e =>
    rw [hf] at hc
    simp only [Bool.and_eq_true, beq_iff_eq] at hc
    obtain ⟨⟨_, hyounger⟩, htail⟩ := hc
    have hfind2 : mfind (mupd m a (withOlder p)) a = some (withOlder p e) := by
      rw [mfind_mupd_self, hf]
      rfl
    simp only [chainSeg, hfind2]
    simp only [Bool.and_eq_true, beq_iff_eq]
    refine ⟨⟨rfl, by simp [withOlder, hyounger]⟩, ?_⟩
    rw [chainSeg_congr m (mupd m a (withOlder p)) T (some a) x fun y hy =>
      mfind_mupd_ne m a y (withOlder p) (fun hh => hmem (hh ▸ hy))]
    exact htail

/-! ## Lemmas about sizes, predicates and record fields -/

@[simp]
theorem withYounger_payload (y : Option String) (e : Entry) :
    (withYounger y e).payload = e.payload := rfl

@[simp]
theorem withOlder_payload (o : Option String) (e : Entry) :
    (withOlder o e).payload = e.payload := rfl

@[simp]
theorem withYounger_id (y : Option String) (e : Entry) :
    (withYounger y e).id = e.id := rfl

@[simp]
theorem withOlder_id (o : Option String) (e : Entry) :
    (withOlder o e).id = e.id := rfl

@[simp]
theorem safeOnPurge_size (c : Cache) (v : Val) (w : PurgeReason) :
    (safeOnPurge c v w).size = c.size := by
  unfold safeOnPurge
  split <;> rfl

@[simp]
theorem safeOnPurge_maxSize (c : Cache) (v : Val) (w : PurgeReason) :
    (safeOnPurge c v w).maxSize = c.maxSize := by
  unfold safeOnPurge
  split <;> rfl

@[simp]
theorem safeOnPurge_entries (c : Cache) (v : Val) (w : PurgeReason) :
    (safeOnPurge c v w).entries = c.entries := by
  unfold safeOnPurge
  split <;> rfl

@[simp]
theorem safeOnPurge_mostRU (c : Cache) (v : Val) (w : PurgeReason) :
    (safeOnPurge c v w).mostRU = c.mostRU := by
  unfold safeOnPurge
  split <;> rfl

@[simp]
theorem safeOnPurge_leastRU (c : Cache) (v : Val) (w : PurgeReason) :
    (safeOnPurge c v w).leastRU = c.leastRU := by
  unfold safeOnPurge
  split <;> rfl

theorem removeEntry_size (c : Cache) (e : Entry) :
    (removeEntry c e).size = c.size - getSize e.payload := by
  unfold removeEntry
  cases e.older <;> cases e.younger <;> rfl

theorem removeEntry_maxSize (c : Cache) (e : Entry) :
    (removeEntry c e).maxSize = c.maxSize := by
  unfold removeEntry
  cases e.older <;> cases e.younger <;> rfl

theorem sumSizes_mdel (m : List (String × Entry)) (k : String) (e : Entry)
    (h : mfind m k = some e) :
    sumSizes (mdel m k) = sumSizes m - getSize e.payload := by
  induction m with
  | nil => simp [mfind] at h
  | cons p rest ih =>
    by_cases hp : p.1 = k
    · simp [mfind, hp] at h
      simp [mdel, hp, sumSizes, h]
    · simp [mfind, hp] at h
      simp [mdel, hp, sumSizes, ih h]
      ring

theorem sumSizes_mupd (m : List (String × Entry)) (k : String) (f : Entry → Entry)
    (hf : ∀ x, (f x).payload = x.payload) :
    sumSizes (mupd m k f) = sumSizes m := by
  induction m with
  | nil => simp [mupd]
  | cons p rest ih =>
    by_cases hp : p.1 = k
    · simp [mupd, hp, sumSizes, hf]
    · simp [mupd, hp, sumSizes, ih]

theorem sumSizes_mput_fresh (m : List (String × Entry)) (k : String) (e : Entry)
    (h : mfind m k = none) :
    sumSizes (mput m k e) = sumSizes m + getSize e.payload := by
  induction m with
  | nil => simp [mput, sumSizes]
  | cons p rest ih =>
    by_cases hp : p.1 = k
    · simp [mfind, hp] at h
    · simp [mfind, hp] at h
      simp [mput, hp, sumSizes, ih h]
      ring

theorem all_mfind {β : Type} (m : List (String × β)) (p : String × β → Bool)
    (k : String) (e : β) (hall : m.all p = true) (h : mfind m k = some e) :
    p (k, e) = true := by
  induction m with
  | nil => simp [mfind] at h
  | cons q rest ih =>
    simp only [List.all_cons, Bool.and_eq_true] at hall
    by_cases hq : q.1 = k
    · simp [mfind, hq] at h
      have : q = (k, e) := by
        cases q
        simp only at hq h
        simp [hq, h]
      exact this ▸ hall.1
    · simp [mfind, hq] at h
      exact ih hall.2 h

theorem all_mdel {β : Type} (m : List (String × β)) (p : String × β → Bool)
    (k : String) (hall : m.all p = true) : (mdel m k).all p = true := by
  rw [List.all_eq_true] at hall ⊢
  intro x hx
  exact hall x (mdel_subset m k x hx)

theorem all_mupd {β : Type} (m : List (String × β)) (p : String × β → Bool)
    (k : String) (g : β → β) (hg : ∀ k2 x, p (k2, x) = true → p (k2, g x) = true)
    (hall : m.all p = true) : (mupd m k g).all p = true := by
  induction m with
  | nil => simp [mupd]
  | cons q rest ih =>
    simp only [List.all_cons, Bool.and_eq_true] at hall
    by_cases hq : q.1 = k
    · rw [show mupd (q :: rest) k g = (q.1, g q.2) :: rest from by simp [mupd, hq]]
      simp only [List.all_cons, Bool.and_eq_true]
      exact ⟨hg q.1 q.2 hall.1, hall.2⟩
    · rw [show mupd (q :: rest) k g = q :: mupd rest k g from by simp [mupd, hq]]
      simp only [List.all_cons, Bool.and_eq_true]
      exact ⟨hall.1, ih hall.2⟩

theorem all_mput {β : Type} (m : List (String × β)) (p : String × β → Bool)
    (k : String) (e : β) (he : p (k, e) = true) (hall : m.all p = true) :
    (mput m k e).all p = true := by
  induction m with
  | nil => simp [mput, he]
  | cons q rest ih =>
    simp only [List.all_cons, Bool.and_eq_true] at hall
    by_cases hq : q.1 = k
    · rw [show mput (q :: rest) k e = (k, e) :: rest from by simp [mput, hq]]
      simp only [List.all_cons, Bool.and_eq_true]
      exact ⟨he, hall.2⟩
    · rw [show mput (q :: rest) k e = q :: mput rest k e from by simp [mput, hq]]
      simp only [List.all_cons, Bool.and_eq_true]
      exact ⟨hall.1, ih hall.2⟩

/-! ## Capacity invariant machinery (claim C4) -/

/-- All entries of `c` have nonnegative size, as an elementwise predicate. -/
theorem entriesNonneg_eq (c : Cache) :
    entriesNonneg c = c.entries.all fun p => decide (0 ≤ getSize p.2.payload) := rfl

theorem entriesNonneg_safeOnPurge (c : Cache) (v : Val) (w : PurgeReason) :
    entriesNonneg (safeOnPurge c v w) = entriesNonneg c := by
  rw [entriesNonneg_eq, entriesNonneg_eq, safeOnPurge_entries]

theorem entriesNonneg_removeEntry (c : Cache) (e : Entry)
    (h : entriesNonneg c = true) : entriesNonneg (removeEntry c e) = true := by
  rw [entriesNonneg_eq] at h ⊢
  have hg : ∀ (y : Option String) (k2 : String) (x : Entry),
      (fun p : String × Entry => decide (0 ≤ getSize p.2.payload)) (k2, x) = true →
      (fun p : String × Entry => decide (0 ≤ getSize p.2.payload)) (k2, withYounger y x) = true := by
    intro y k2 x hx
    simpa using hx
  have hg2 : ∀ (o : Option String) (k2 : String) (x : Entry),
      (fun p : String × Entry => decide (0 ≤ getSize p.2.payload)) (k2, x) = true →
      (fun p : String × Entry => decide (0 ≤ getSize p.2.payload)) (k2, withOlder o x) = true := by
    intro o k2 x hx
    simpa using hx
  unfold removeEntry
  cases e.older with
  | none =>
    cases e.younger with
    | none =>
      simp only
      exact all_mdel _ _ _ h
    | some n =>
      simp only
      exact all_mupd _ _ _ _ (hg2 e.older) (all_mdel _ _ _ h)
  | some p =>
    cases e.younger with
    | none =>
      simp only
      exact all_mupd _ _ _ _ (hg e.younger) (all_mdel _ _ _ h)
    | some n =>
      simp only
      exact all_mupd _ _ _ _ (hg2 e.older) (all_mupd _ _ _ _ (hg e.younger) (all_mdel _ _ _ h))

theorem purgeLRU_cases (c c2 : Cache) (h : purgeLRU c = some c2) :
    ∃ k e, c.leastRU = some k ∧ mfind c.entries k = some e ∧
      c2 = removeEntry (safeOnPurge c e.payload .CACHEFULL) e := by
  unfold purgeLRU at h
  split at h
  next => simp at h
  next k hl =>
    split at h
    next => simp at h
    next e hf =>
      simp only [Option.some_inj] at h
      exact ⟨k, e, hl, hf, h.symm⟩

theorem purgeLRU_maxSize (c c2 : Cache) (h : purgeLRU c = some c2) :
    c2.maxSize = c.maxSize := by
  obtain ⟨k, e, _, _, hc2⟩ := purgeLRU_cases c c2 h
  rw [hc2, removeEntry_maxSize, safeOnPurge_maxSize]

theorem purgeLRU_entriesNonneg (c c2 : Cache) (hn : entriesNonneg c = true)
    (h : purgeLRU c = some c2) : entriesNonneg c2 = true := by
  obtain ⟨k, e, _, _, hc2⟩ := purgeLRU_cases c c2 h
  rw [hc2]
  exact entriesNonneg_removeEntry _ _ (by rw [entriesNonneg_safeOnPurge]; exact hn)

theorem trimLoop_size_le (fuel : Nat) :
    ∀ c c2, trimLoop fuel c = some c2 → c2.size ≤ c2.maxSize := by
  induction fuel with
  | zero => intro c c2 h; simp [trimLoop] at h
  | succ n ih =>
    intro c c2 h
    rw [trimLoop] at h
    by_cases hgt : c.size > c.maxSize
    · rw [if_pos hgt] at h
      cases hp : purgeLRU c with
      | none => rw [hp] at h; simp at h
      | some c3 => rw [hp] at h; exact ih c3 c2 h
    · rw [if_neg hgt] at h
      simp only [Option.some_inj] at h
      rw [← h]
      exact not_lt.mp hgt

theorem trimLoop_maxSize (fuel : Nat) :
    ∀ c c2, trimLoop fuel c = some c2 → c2.maxSize = c.maxSize := by
  induction fuel with
  | zero => intro c c2 h; simp [trimLoop] at h
  | succ n ih =>
    intro c c2 h
    rw [trimLoop] at h
    by_cases hgt : c.size > c.maxSize
    · rw [if_pos hgt] at h
      cases hp : purgeLRU c with
      | none => rw [hp] at h; simp at h
      | some c3 =>
        rw [hp] at h
        rw [ih c3 c2 h, purgeLRU_maxSize c c3 hp]
    · rw [if_neg hgt] at h
      simp only [Option.some_inj] at h
      rw [← h]

theorem trimLoop_entriesNonneg (fuel : Nat) :
    ∀ c c2, entriesNonneg c = true → trimLoop fuel c = some c2 →
      entriesNonneg c2 = true := by
  induction fuel with
  | zero => intro c c2 _ h; simp [trimLoop] at h
  | succ n ih =>
    intro c c2 hn h
    rw [trimLoop] at h
    by_cases hgt : c.size > c.maxSize
    · rw [if_pos hgt] at h
      cases hp : purgeLRU c with
      | none => rw [hp] at h; simp at h
      | some c3 =>
        rw [hp] at h
        exact ih c3 c2 (purgeLRU_entriesNonneg c c3 hn hp) h
    · rw [if_neg hgt] at h
      simp only [Option.some_inj] at h
      rw [← h]
      exact hn

theorem trimCache_spec (c c2 : Cache) (h : trimCache c = some c2) :
    c2.maxSize = c.maxSize ∧ ((c.maxSize ≤ 0 ∧ c2 = c) ∨ c2.size ≤ c2.maxSize) ∧
      (entriesNonneg c = true → entriesNonneg c2 = true) := by
  unfold trimCache at h
  by_cases hle : c.maxSize ≤ 0
  · rw [if_pos hle] at h
    simp only [Option.some_inj] at h
    rw [← h]
    exact ⟨rfl, Or.inl ⟨hle, rfl⟩, fun hh => hh⟩
  · rw [if_neg hle] at h
    exact ⟨trimLoop_maxSize _ c c2 h, Or.inr (trimLoop_size_le _ c c2 h),
      fun hn => trimLoop_entriesNonneg _ c c2 hn h⟩

theorem trimCache_capOK (X c2 : Cache) (h : trimCache X = some c2)
    (hn : entriesNonneg X = true) :
    (0 < c2.maxSize → c2.size ≤ c2.maxSize) ∧ entriesNonneg c2 = true := by
  obtain ⟨hm, hor, hnn⟩ := trimCache_spec X c2 h
  refine ⟨?_, hnn hn⟩
  intro hpos
  rcases hor with ⟨hle, heq⟩ | hle2
  · rw [heq] at hpos
    exact absurd hpos (not_lt.mpr hle)
  · exact hle2

theorem nonnegP_withYounger (y : Option String) (k2 : String) (x : Entry)
    (hx : (fun p : String × Entry => decide (0 ≤ getSize p.2.payload)) (k2, x) = true) :
    (fun p : String × Entry => decide (0 ≤ getSize p.2.payload)) (k2, withYounger y x) = true := by
  simpa using hx

theorem nonnegP_withOlder (o : Option String) (k2 : String) (x : Entry)
    (hx : (fun p : String × Entry => decide (0 ≤ getSize p.2.payload)) (k2, x) = true) :
    (fun p : String × Entry => decide (0 ≤ getSize p.2.payload)) (k2, withOlder o x) = true := by
  simpa using hx

theorem directSet_capOK (c : Cache) (id : String) (v : Val) (c2 : Cache)
    (hnn : entriesNonneg c = true) (hv : 0 ≤ getSize v)
    (hc : 0 < c.maxSize → c.size ≤ c.maxSize)
    (h : directSet c id v = some c2) :
    (0 < c2.maxSize → c2.size ≤ c2.maxSize) ∧ entriesNonneg c2 = true := by
  cases hfind : mfind c.entries id with
  | none =>
    simp only [directSet, hfind] at h
    by_cases hsz : getSize v = 0
    · rw [if_pos hsz] at h
      simp only [Option.some_inj] at h
      subst h
      constructor
      · intro hpos
        exact hc hpos
      · exact all_mput c.entries _ id _ (decide_eq_true hv) hnn
    · rw [if_neg hsz] at h
      split at h
      next hleast =>
        exact trimCache_capOK _ c2 h
          (all_mput c.entries _ id _ (decide_eq_true hv) hnn)
      next x hleast =>
        split at h
        next => simp at h
        next m hmost =>
          exact trimCache_capOK _ c2 h
            (all_mupd _ _ id _ (nonnegP_withOlder (some m))
              (all_mupd _ _ m _ (nonnegP_withYounger (some id))
                (all_mput c.entries _ id _ (decide_eq_true hv) hnn)))
  | some old =>
    have hold : 0 ≤ getSize old.payload := by
      have := all_mfind c.entries _ id old hnn hfind
      simpa using this
    have hc1n : entriesNonneg (removeEntry (safeOnPurge c old.payload .KEYCOLLISION) old) = true := by
      refine entriesNonneg_removeEntry _ _ ?_
      rw [entriesNonneg_safeOnPurge]
      exact hnn
    have hc1s : (removeEntry (safeOnPurge c old.payload .KEYCOLLISION) old).size =
        c.size - getSize old.payload := by
      rw [removeEntry_size, safeOnPurge_size]
    have hc1m : (removeEntry (safeOnPurge c old.payload .KEYCOLLISION) old).maxSize =
        c.maxSize := by
      rw [removeEntry_maxSize, safeOnPurge_maxSize]
    simp only [directSet, hfind] at h
    by_cases hsz : getSize v = 0
    · rw [if_pos hsz] at h
      simp only [Option.some_inj] at h
      subst h
      constructor
      · intro hpos
        have hpos2 : 0 < c.maxSize := by
          rw [← hc1m]
          exact hpos
        have hsle : c.size ≤ c.maxSize := hc hpos2
        show (removeEntry (safeOnPurge c old.payload .KEYCOLLISION) old).size ≤
          (removeEntry (safeOnPurge c old.payload .KEYCOLLISION) old).maxSize
        rw [hc1s, hc1m]
        omega
      · exact all_mput _ _ id _ (decide_eq_true hv) hc1n
    · rw [if_neg hsz] at h
      split at h
      next hleast =>
        exact trimCache_capOK _ c2 h
          (all_mput _ _ id _ (decide_eq_true hv) hc1n)
      next x hleast =>
        split at h
        next => simp at h
        next m hmost =>
          exact trimCache_capOK _ c2 h
            (all_mupd _ _ id _ (nonnegP_withOlder (some m))
              (all_mupd _ _ m _ (nonnegP_withYounger (some id))
                (all_mput _ _ id _ (decide_eq_true hv) hc1n)))

theorem Delete_capOK (c : Cache) (id : String)
    (hnn : entriesNonneg c = true) (hc : 0 < c.maxSize → c.size ≤ c.maxSize) :
    (0 < (Delete c id).maxSize → (Delete c id).size ≤ (Delete c id).maxSize) ∧
      entriesNonneg (Delete c id) = true := by
  cases hfind : mfind c.entries id with
  | none =>
    simp only [Delete, hfind]
    exact ⟨hc, hnn⟩
  | some e =>
    simp only [Delete, hfind]
    have he : 0 ≤ getSize e.payload := by
      have := all_mfind c.entries _ id e hnn hfind
      simpa using this
    by_cases hsz : getSize e.payload ≠ 0
    · rw [if_pos hsz]
      constructor
      · intro hpos
        rw [removeEntry_maxSize, safeOnPurge_maxSize] at hpos
        rw [removeEntry_size, safeOnPurge_size, removeEntry_maxSize, safeOnPurge_maxSize]
        have := hc hpos
        omega
      · refine entriesNonneg_removeEntry _ _ ?_
        rw [entriesNonneg_safeOnPurge]
        exact hnn
    · rw [if_neg hsz]
      constructor
      · intro hpos
        rw [safeOnPurge_maxSize] at hpos
        rw [safeOnPurge_size, safeOnPurge_maxSize]
        exact hc hpos
      · rw [entriesNonneg_safeOnPurge]
        exact hnn

theorem MaxSize_capOK (c : Cache) (i : Int) (c2 : Cache)
    (hnn : entriesNonneg c = true) (h : MaxSize c i = some c2) :
    (0 < c2.maxSize → c2.size ≤ c2.maxSize) ∧ entriesNonneg c2 = true := by
  exact trimCache_capOK _ c2 h hnn

theorem runOps_capOK :
    ∀ (ops : List Op) (c c2 : Cache), opsNonneg ops = true →
      entriesNonneg c = true → (0 < c.maxSize → c.size ≤ c.maxSize) →
      runOps c ops = some c2 →
      (0 < c2.maxSize → c2.size ≤ c2.maxSize) ∧ entriesNonneg c2 = true := by
  intro ops
  induction ops with
  | nil =>
    intro c c2 _ hnn hc h
    simp only [runOps, Option.some_inj] at h
    subst h
    exact ⟨hc, hnn⟩
  | cons op rest ih =>
    intro c c2 hops hnn hc h
    simp only [opsNonneg, List.all_cons, Bool.and_eq_true] at hops
    simp only [runOps] at h
    cases hap : applyOp c op with
    | none => rw [hap] at h; simp at h
    | some c3 =>
      rw [hap] at h
      have step : (0 < c3.maxSize → c3.size ≤ c3.maxSize) ∧ entriesNonneg c3 = true := by
        cases op with
        | set sid v =>
          have hv : 0 ≤ getSize v := by
            have := hops.1
            simpa using this
          exact directSet_capOK c sid v c3 hnn hv hc hap
        | del did =>
          simp only [applyOp, Option.some_inj] at hap
          rw [← hap]
          exact Delete_capOK c did hnn hc
        | maxSize i =>
          exact MaxSize_capOK c i c3 hnn hap
      exact ih c3 c2 hops.2 step.2 step.1 h

/-! ## Concrete test data for the claims -/

/-- A value with explicit size `i` and purge notification (like `varsize`
from the test suite, plus `NotifyPurge` so evictions appear in the log). -/
def vs (t : Nat) (i : Int) : Val :=
  { tag := t, sizeImpl := some i, notify := true }

/-- A value with explicit size `i` and no purge notification. -/
def quiet (t : Nat) (i : Int) : Val :=
  { tag := t, sizeImpl := some i, notify := false }

/-- Ops of the C1 scenario before the critical overwrite. -/
def c1pre : List Op := [Op.set "b" (vs 1 1), Op.set "a" (vs 2 0)]

/-- Ops of the C1 scenario: overwrite the size-0 entry under key a. -/
def c1ops : List Op := c1pre ++ [Op.set "a" (vs 3 1)]

/-- Ops after which a later MaxSize call panics (nil dereference in
purgeLRU): the overwrite of the size-0 entry orphans b1 and b2 from the
recency list while they still count toward the size. -/
def c1panic : List Op :=
  [Op.set "b1" (vs 1 1), Op.set "b2" (vs 2 1), Op.set "a" (vs 3 0),
   Op.set "a" (vs 4 1), Op.maxSize 1]

/-- Claim C1 (code bug): overwriting a key whose old value has size 0
corrupts the store invariant.  After `Set b (size 1); Set a (size 0)` the
invariant holds; the subsequent `Set a (size 1)` resets both list ends to
nil (the size-0 node was never linked, so its nil pointers are copied
into mostRU and leastRU), orphaning b: the mapping still holds b with
size 1 and currentSize 2, but the recency list is just [a].  The orphaned
size even makes a later `MaxSize 1` dereference a nil leastRU (a Go
panic, modelled as `none`). -/
theorem C1_invariant_violated :
    (runOps (New 10) c1pre).map storeInvB = some true ∧
    (runOps (New 10) c1ops).map storeInvB = some false ∧
    (runOps (New 10) c1ops).map
      (fun c => ((mfind c.entries "b").isSome, c.leastRU, c.mostRU, c.size)) =
      some (true, some "a", some "a", 2) ∧
    runOps (New 2) c1panic = none := by decide

/-- Ops of the C2 scenario: store a size-0 value, then delete it. -/
def delZeroOps : List Op := [Op.set "a" (vs 5 0), Op.del "a"]

/-- Claim C2 (code bug): Delete on a size-0 entry fires the
EXPLICITDELETE notification but skips `removeEntry` entirely, so the
entry is never removed from the key mapping and an immediately following
lookup still finds it (the claim requires not-found). -/
theorem C2_delete_zero_size_entry_remains :
    (runOps (New 10) delZeroOps).map
      (fun c => ((mfind c.entries "a").isSome, c.purgeLog)) =
      some (true, [(5, PurgeReason.EXPLICITDELETE)]) ∧
    (Get none ((runOps (New 10) delZeroOps).getD (New 0)) "a").map
      (fun r => (r.2.1.map Val.tag, r.2.2)) = some (some 5, none) := by decide

/-- Ops of the C8 scenario: delete the same size-0 entry twice. -/
def dblDelOps : List Op := [Op.set "a" (vs 5 0), Op.del "a", Op.del "a"]

/-- Claim C8 (code bug): because Delete never removes a size-0 entry from
the mapping, deleting it twice invokes the same value purge notification
twice - contradicting the NotifyPurge documentation (called once) and the
claim that no notification is ever invoked twice. -/
theorem C8_purge_notified_twice :
    (runOps (New 10) dblDelOps).map Cache.purgeLog =
      some [(5, PurgeReason.EXPLICITDELETE), (5, PurgeReason.EXPLICITDELETE)] := by
  decide

/-- The insertion sequence of claim C3: keys 1..14 with size i each,
capacity 100 (the `TestSize` scenario from the test suite). -/
def evictOps : List Op :=
  [Op.set "1" (vs 1 1), Op.set "2" (vs 2 2), Op.set "3" (vs 3 3),
   Op.set "4" (vs 4 4), Op.set "5" (vs 5 5), Op.set "6" (vs 6 6),
   Op.set "7" (vs 7 7), Op.set "8" (vs 8 8), Op.set "9" (vs 9 9),
   Op.set "10" (vs 10 10), Op.set "11" (vs 11 11), Op.set "12" (vs 12 12),
   Op.set "13" (vs 13 13), Op.set "14" (vs 14 14)]

/-- Claim C3 counterexample: the claim says keys 1..4 are evicted and
exactly 5..14 remain, but key 4 is still present after the run and only
three CACHEFULL purges happened (105 - 1 - 2 - 3 = 99 is already within
the capacity 100, so trimming stops after evicting 3). -/
theorem C3_eviction_counterexample :
    (runOps (New 100) evictOps).map
      (fun c => ((mfind c.entries "4").isSome, c.purgeLog.length)) =
      some (true, 3) := by decide

/-- Claim C3 (amended): with capacity 100 and inserts of sizes 1..14, the
cache evicts exactly keys 1, 2, 3 (oldest first, reason CACHE_FULL),
leaves exactly keys 4..14, and reports final size 99; the store invariant
holds in the final state. -/
theorem C3_eviction_amended :
    (runOps (New 100) evictOps).map
      (fun c => (c.size, c.purgeLog, c.entries.map Prod.fst, storeInvB c)) =
      some (99,
        [(1, PurgeReason.CACHEFULL), (2, PurgeReason.CACHEFULL),
          (3, PurgeReason.CACHEFULL)],
        ["4", "5", "6", "7", "8", "9", "10", "11", "12", "13", "14"],
        true) := by decide

/-- The C4 counterexample ops: a negative-size value makes an overwrite
by a size-0 value increase currentSize without any trim. -/
def negSizeOps : List Op :=
  [Op.set "a" (quiet 1 (-5)), Op.set "b" (quiet 2 2), Op.set "c" (quiet 3 2),
   Op.set "a" (quiet 4 0)]

/-- Claim C4 counterexample: after the negative-size sequence every
operation completed, capacity is 2 > 0, nonzero-size entries exist, yet
the size is 4 > 2; every individual entry size is within capacity, so the
single-oversized-entry exception cannot apply.  (Overwriting the size -5
entry with a size-0 value adds 5 to currentSize, and the size-0 branch of
directSet returns before trimming.) -/
theorem C4_capacity_counterexample :
    (runOps (New 2) negSizeOps).map
      (fun c =>
        decide (0 < c.maxSize) && decide (c.maxSize < c.size) &&
        c.entries.any (fun p => !(getSize p.2.payload == 0)) &&
        decide (c.entries.length = 3) &&
        c.entries.all (fun p => decide (getSize p.2.payload ≤ c.maxSize))) =
      some true := by decide

/-- Claim C4 (amended): for all sequences of Set, Delete and MaxSize
operations in which every stored value reports a nonnegative size, after
every operation completes, the total size is at most the capacity
whenever the capacity is greater than 0 and at least one nonzero-size
entry exists (no exception is even needed). -/
theorem C4_capacity_amended (m : Int) (ops : List Op) (c2 : Cache)
    (hops : opsNonneg ops = true) (h : runOps (New m) ops = some c2)
    (hpos : 0 < c2.maxSize)
    (hnz : c2.entries.any (fun p => !(getSize p.2.payload == 0)) = true) :
    c2.size ≤ c2.maxSize := by
  have init1 : entriesNonneg (New m) = true := rfl
  have init2 : 0 < (New m).maxSize → (New m).size ≤ (New m).maxSize := by
    intro hp
    exact le_of_lt hp
  exact (runOps_capOK ops (New m) c2 hops init1 init2 h).1 hpos

/-- Ops for the C4 witness. -/
def c4wops : List Op := [Op.set "a" (quiet 1 2), Op.set "b" (quiet 2 2)]

/-- Final state of the C4 witness run. -/
def c4wFinal : Cache := (runOps (New 3) c4wops).getD (New 0)

theorem C4_capacity_amended_witness :
    opsNonneg c4wops = true ∧ runOps (New 3) c4wops = some c4wFinal ∧
    0 < c4wFinal.maxSize ∧
    c4wFinal.entries.any (fun p => !(getSize p.2.payload == 0)) = true ∧
    c4wFinal.size ≤ c4wFinal.maxSize :=
  ⟨by decide, by decide, by decide, by decide,
    C4_capacity_amended 3 c4wops c4wFinal (by decide) (by decide) (by decide)
      (by decide)⟩

/-! ## Claims C7 and C10: miss handler error paths -/

/-- Claim C7: for every key absent from the cache, if the installed miss
handler returns a non-nil error, Get propagates that error verbatim to
the caller and the cache state is unchanged - nothing is stored for the
key, no entry is created. -/
theorem C7_handler_error_propagated (c : Cache) (k : String) (f : Handler)
    (v : Option Val) (e : CError) (habs : mfind c.entries k = none)
    (hf : f k = (v, some e)) :
    Get (some f) c k = some (c, v, some e) := by
  simp only [Get, habs, handleCacheMiss, hf]

/-- Handler for the C7 witness. -/
def f7 : Handler := fun _ => (none, some (CError.custom 3))

theorem C7_handler_error_propagated_witness :
    mfind (New 5).entries "k" = none ∧ f7 "k" = (none, some (CError.custom 3)) ∧
    Get (some f7) (New 5) "k" = some (New 5, none, some (CError.custom 3)) :=
  ⟨rfl, rfl, C7_handler_error_propagated (New 5) "k" f7 none (CError.custom 3) rfl rfl⟩

/-- Claim C10: if the miss handler returns both a non-nil value and a
non-nil error for an absent key, Get returns that value together with
that error (not nil alongside the error), and the value is not stored:
the returned cache state is the unchanged input state. -/
theorem C10_value_and_error_returned (c : Cache) (k : String) (f : Handler)
    (v : Val) (e : CError) (habs : mfind c.entries k = none)
    (hf : f k = (some v, some e)) :
    Get (some f) c k = some (c, some v, some e) := by
  simp only [Get, habs, handleCacheMiss, hf]

/-- Handler for the C10 witness. -/
def f10 : Handler := fun _ => (some (vs 9 1), some (CError.custom 4))

theorem C10_value_and_error_returned_witness :
    mfind (New 5).entries "k" = none ∧
    f10 "k" = (some (vs 9 1), some (CError.custom 4)) ∧
    Get (some f10) (New 5) "k" = some (New 5, some (vs 9 1), some (CError.custom 4)) :=
  ⟨rfl, rfl,
    C10_value_and_error_returned (New 5) "k" f10 (vs 9 1) (CError.custom 4) rfl rfl⟩

/-! ## Claim C9: the NoConcurrentDupes mainloop

`nocondupesMainloop` (limitconcurrency.go) is a single sequential loop
that selects between two channels: incoming requests (`opchan`) and
completions of launched handler calls (`donechan`).  Concurrency of the
callers therefore reduces to the order in which the loop consumes
messages.  We model the two message kinds and the loop state: `inflight`
is the `waiting` map, mapping a key to the index of the launch of the
wrapped handler whose `fullReply` every subscriber of that key receives
through the chained reply channels; `launches` records every `go f(r.id)`
launch; `replies` records, per request, the launch whose result that
caller receives.  A request for an in-flight key subscribes to the
pending launch (`inprogress` is true, no new launch); otherwise a new
launch is started.  A completion deletes the waiting entry, so a later
request starts a new generation. -/

inductive DMsg where
  | req (id : String)
  | done (id : String)

/-- State of the dedup mainloop model. -/
structure DState where
  inflight : List (String × Nat)
  nextGen : Nat
  launches : List (String × Nat)
  replies : List (String × Nat)
deriving DecidableEq

/-- One iteration of the mainloop. -/
def dstep (s : DState) : DMsg → DState
  | .req id =>
    match mfind s.inflight id with
    | some g => { s with replies := s.replies ++ [(id, g)] }
    | none =>
      { s with inflight := mput s.inflight id s.nextGen,
               nextGen := s.nextGen + 1,
               launches := s.launches ++ [(id, s.nextGen)],
               replies := s.replies ++ [(id, s.nextGen)] }
  | .done id => { s with inflight := mdel s.inflight id }

/-- Run the mainloop over a message sequence. -/
def drun (s : DState) : List DMsg → DState
  | [] => s
  | msg :: rest => drun (dstep s msg) rest

/-- The state of a freshly created wrapper. -/
def dinit : DState :=
  { inflight := [], nextGen := 0, launches := [], replies := [] }

theorem drun_subscribe (k : String) (g : Nat) :
    ∀ (M : Nat) (s : DState), mfind s.inflight k = some g →
      drun s (List.replicate M (DMsg.req k)) =
        { s with replies := s.replies ++ List.replicate M (k, g) } := by
  intro M
  induction M with
  | zero =>
    intro s h
    simp [drun, List.replicate]
  | succ n ih =>
    intro s h
    rw [List.replicate_succ]
    simp only [drun, dstep, h]
    rw [ih { s with replies := s.replies ++ [(k, g)] } h]
    simp [List.replicate_succ, List.append_assoc]

/-- Claim C9: for every N at least 1, N wrapper calls for the same key
processed by the mainloop before the completion of the generation (the
done message) cause exactly one launch of the wrapped handler, and every
one of the N callers receives the reply of that single launch (hence the
same value/error pair). -/
theorem C9_dedup_single_flight (k : String) (N : Nat) (hN : 1 ≤ N) :
    (drun dinit (List.replicate N (DMsg.req k))).launches = [(k, 0)] ∧
    (drun dinit (List.replicate N (DMsg.req k))).replies =
      List.replicate N (k, 0) := by
  obtain ⟨n, rfl⟩ : ∃ n, N = n + 1 := ⟨N - 1, (Nat.succ_pred_eq_of_pos hN).symm⟩
  rw [List.replicate_succ]
  simp only [drun, dstep, dinit, mfind]
  rw [drun_subscribe k 0 n _ (by simp [mput, mfind])]
  constructor
  · rfl
  · simp [List.replicate_succ]

theorem C9_dedup_single_flight_witness :
    1 ≤ 3 ∧
    (drun dinit (List.replicate 3 (DMsg.req "foo"))).launches = [("foo", 0)] ∧
    (drun dinit (List.replicate 3 (DMsg.req "foo"))).replies =
      List.replicate 3 ("foo", 0) :=
  ⟨by decide, (C9_dedup_single_flight "foo" 3 (by decide)).1,
    (C9_dedup_single_flight "foo" 3 (by decide)).2⟩

/-! ## Claim C5: Get recency semantics -/

theorem erase_append_middle (k : String) :
    ∀ (A B : List String), k ∉ A → (A ++ k :: B).erase k = A ++ B := by
  intro A
  induction A with
  | nil =>
    intro B _
    simp [List.erase_cons_head]
  | cons a rest ih =>
    intro B hk
    simp only [List.mem_cons, not_or] at hk
    obtain ⟨hak, hrest⟩ := hk
    have hka : ¬ a = k := fun h => hak h.symm
    simp only [List.cons_append]
    rw [List.erase_cons_tail (by simp [hka]), ih B hrest]

/-- Claim C5: for every present key that participates in the recency
list, a Get when the key is already most recently used returns its value
and leaves the cache (hence the recency order) unchanged; a Get on any
other listed key returns its value, makes it most recently used, and all
other entries keep their relative order: the new recency list is the old
one with the key moved to the most-recently-used end.  The installed
handler `f` is arbitrary and never invoked on a hit. -/
theorem C5_get_recency (f : Option Handler) (c : Cache) (l : List String) (k : String)
    (hrep : representsB c l = true) (hnd : l.Nodup) (hk : k ∈ l) :
    ∃ c2 e, mfind c.entries k = some e ∧
      Get f c k = some (c2, some e.payload, none) ∧
      representsB c2 (l.erase k ++ [k]) = true ∧
      (endOf none l = some k → c2 = c) := by
  obtain ⟨A, B, rfl⟩ := List.append_of_mem hk
  obtain ⟨hndA, hndkB, hdisj⟩ := List.nodup_append.mp hnd
  rw [List.nodup_cons] at hndkB
  obtain ⟨hkB, hndB⟩ := hndkB
  have hkA : k ∉ A := fun h => hdisj h (List.mem_cons_self k B)
  simp only [representsB, Bool.and_eq_true, beq_iff_eq] at hrep
  obtain ⟨⟨hchain, hleast⟩, hmost⟩ := hrep
  rw [chainSeg_append] at hchain
  simp only [Bool.and_eq_true] at hchain
  obtain ⟨hchainA, hchainKB⟩ := hchain
  have hchainA2 : chainSeg c.entries none A (some k) = true := hchainA
  cases hfind : mfind c.entries k with
  | none =>
    simp only [chainSeg, hfind] at hchainKB
    simp at hchainKB
  | some e =>
    simp only [chainSeg, hfind, Bool.and_eq_true, beq_iff_eq] at hchainKB
    obtain ⟨⟨holder, hyounger⟩, hchainB⟩ := hchainKB
    cases B with
    | nil =>
      have hyE : e.younger = none := hyounger
      refine ⟨c, e, rfl, ?_, ?_, fun _ => rfl⟩
      · simp only [Get, hfind, if_pos hyE]
      · rw [erase_append_middle k A [] hkA, List.append_nil]
        simp only [representsB, Bool.and_eq_true, beq_iff_eq]
        refine ⟨⟨?_, hleast⟩, hmost⟩
        rw [chainSeg_append]
        simp only [Bool.and_eq_true]
        refine ⟨hchainA2, ?_⟩
        rw [chainSeg_single]
        exact ⟨e, hfind, holder, hyE⟩
    | cons n B2 =>
      have hyE : e.younger = some n := hyounger
      obtain ⟨mId, hmId, hmIdmem⟩ := endOf_mem (n :: B2) (List.cons_ne_nil n B2) (some k)
      have hmost2 : c.mostRU = some mId := by
        rw [hmost, endOf_append]
        exact hmId
      have hkn : k ≠ n := fun h => hkB (h ▸ List.mem_cons_self n B2)
      have hkmId : mId ≠ k := fun h => hkB (h ▸ hmIdmem)
      have hnB2 : n ∉ B2 := (List.nodup_cons.mp hndB).1
      have hknB2 : k ∉ n :: B2 := hkB
      cases A with
      | nil =>
        have hoE : e.older = none := holder
        refine ⟨{ c with
            entries := mupd (mupd (mupd (mupd c.entries n (withOlder none)) k
              (withOlder (some mId))) k (withYounger none)) mId
              (withYounger (some k)),
            mostRU := some k, leastRU := some n }, e, rfl, ?_, ?_, ?_⟩
        · simp only [Get, hfind, hoE, hyE, hmost2]
          rw [if_neg (by simp)]
        · rw [erase_append_middle k [] (n :: B2) hkA]
          simp only [List.nil_append]
          simp only [representsB, Bool.and_eq_true, beq_iff_eq]
          refine ⟨⟨?_, by simp⟩, ?_⟩
          · rw [chainSeg_append]
            simp only [Bool.and_eq_true]
            constructor
            · have s1 : chainSeg (mupd c.entries n (withOlder none)) none (n :: B2) none = true :=
                chainSeg_set_head_older c.entries none n B2 (some k) none hnB2 hchainB
              have s2 : chainSeg (mupd (mupd (mupd c.entries n (withOlder none)) k
                  (withOlder (some mId))) k (withYounger none)) none (n :: B2) none = true := by
                rw [chainSeg_congr (mupd c.entries n (withOlder none)) _ (n :: B2) none none ?_]
                · exact s1
                · intro y hy
                  have hyk : y ≠ k := fun h => hknB2 (h ▸ hy)
                  rw [mfind_mupd_ne _ k y _ hyk, mfind_mupd_ne _ k y _ hyk]
              have hend2 : endOf none (n :: B2) = some mId := by
                rw [endOf_ne_nil (n :: B2) (List.cons_ne_nil n B2) none (some k)]
                exact hmId
              exact chainSeg_set_last_younger
                (mupd (mupd (mupd c.entries n (withOlder none)) k (withOlder (some mId))) k
                  (withYounger none)) (some k) (n :: B2) none none mId hndB
                (List.cons_ne_nil n B2) hend2 s2
            · have hend3 : endOf none (n :: B2) = some mId := by
                rw [endOf_ne_nil (n :: B2) (List.cons_ne_nil n B2) none (some k)]
                exact hmId
              rw [hend3, chainSeg_single]
              refine ⟨withYounger none (withOlder (some mId) e), ?_, rfl, rfl⟩
              have hkm : k ≠ mId := fun h => hkmId h.symm
              rw [mfind_mupd_ne _ mId k _ hkm, mfind_mupd_self, mfind_mupd_self,
                mfind_mupd_ne _ n k _ hkn, hfind]
              rfl
          · rw [endOf_concat]
        · intro hcontra
          exfalso
          apply hkmId
          have hmm : endOf none ([] ++ k :: n :: B2) = some mId := by
            rw [List.nil_append]
            exact hmId
          rw [hmm] at hcontra
          exact Option.some_inj.mp hcontra
      | cons a A2 =>
        obtain ⟨aLast, haLast, haLastMem⟩ := endOf_mem (a :: A2) (List.cons_ne_nil a A2) none
        have hoE : e.older = some aLast := by rw [holder, haLast]
        have haLastNB : aLast ∉ k :: n :: B2 := hdisj haLastMem
        have haLastn : aLast ≠ n := fun h =>
          haLastNB (by rw [h]; exact List.mem_cons_of_mem k (List.mem_cons_self n B2))
        have haLastk : aLast ≠ k := fun h =>
          haLastNB (by rw [h]; exact List.mem_cons_self k (n :: B2))
        have haLastB2 : aLast ∉ n :: B2 := fun h => haLastNB (List.mem_cons_of_mem k h)
        refine ⟨{ c with
            entries := mupd (mupd (mupd (mupd (mupd c.entries aLast
              (withYounger (some n))) n (withOlder (some aLast))) k
              (withOlder (some mId))) k (withYounger none)) mId
              (withYounger (some k)),
            mostRU := some k }, e, rfl, ?_, ?_, ?_⟩
        · simp only [Get, hfind, hoE, hyE, hmost2]
          rw [if_neg (by simp)]
        · rw [erase_append_middle k (a :: A2) (n :: B2) hkA]
          simp only [representsB, Bool.and_eq_true, beq_iff_eq]
          refine ⟨⟨?_, by simpa using hleast⟩, ?_⟩
          · rw [chainSeg_append]
            simp only [Bool.and_eq_true]
            constructor
            · rw [chainSeg_append]
              simp only [Bool.and_eq_true]
              constructor
              · -- chain over A with new next = head of B
                have s0 := chainSeg_set_last_younger c.entries (some n) (a :: A2) none
                  (some k) aLast hndA (List.cons_ne_nil a A2) haLast hchainA2
                rw [chainSeg_congr (mupd c.entries aLast (withYounger (some n))) _
                  (a :: A2) none (nextOf (n :: B2) (nextOf [k] none)) ?_]
                · exact s0
                · intro y hy
                  have hyn : y ≠ n := fun h =>
                    hdisj hy (by rw [h]; exact List.mem_cons_of_mem k (List.mem_cons_self n B2))
                  have hyk : y ≠ k := fun h => hkA (by rw [← h]; exact hy)
                  have hymId : y ≠ mId := fun h =>
                    hdisj hy (by rw [h]; exact List.mem_cons_of_mem k hmIdmem)
                  rw [mfind_mupd_ne _ mId y _ hymId, mfind_mupd_ne _ k y _ hyk,
                    mfind_mupd_ne _ k y _ hyk, mfind_mupd_ne _ n y _ hyn]
              · -- chain over B with new prev = last of A and new next = k
                rw [haLast]
                have t0 : chainSeg (mupd c.entries aLast (withYounger (some n)))
                    (some k) (n :: B2) none = true := by
                  rw [chainSeg_congr c.entries _ (n :: B2) (some k) none fun y hy =>
                    mfind_mupd_ne _ aLast y _ (fun h => haLastB2 (h ▸ hy))]
                  exact hchainB
                have t1 := chainSeg_set_head_older
                  (mupd c.entries aLast (withYounger (some n))) (some aLast) n B2
                  (some k) none hnB2 t0
                have t2 : chainSeg (mupd (mupd (mupd (mupd c.entries aLast
                    (withYounger (some n))) n (withOlder (some aLast))) k
                    (withOlder (some mId))) k (withYounger none))
                    (some aLast) (n :: B2) none = true := by
                  rw [chainSeg_congr (mupd (mupd c.entries aLast (withYounger (some n))) n
                    (withOlder (some aLast))) _ (n :: B2) (some aLast) none ?_]
                  · exact t1
                  · intro y hy
                    have hyk : y ≠ k := fun h => hknB2 (h ▸ hy)
                    rw [mfind_mupd_ne _ k y _ hyk, mfind_mupd_ne _ k y _ hyk]
                have hend2 : endOf (some aLast) (n :: B2) = some mId := by
                  rw [endOf_ne_nil (n :: B2) (List.cons_ne_nil n B2) (some aLast) (some k)]
                  exact hmId
                exact chainSeg_set_last_younger _ (some k) (n :: B2) (some aLast) none mId
                  hndB (List.cons_ne_nil n B2) hend2 t2
            · -- the singleton [k] at the most-recently-used end
              have hend3 : endOf none ((a :: A2) ++ n :: B2) = some mId := by
                rw [endOf_append, endOf_ne_nil (n :: B2) (List.cons_ne_nil n B2)
                  (endOf none (a :: A2)) (some k)]
                exact hmId
              rw [hend3, chainSeg_single]
              refine ⟨withYounger none (withOlder (some mId) e), ?_, rfl, rfl⟩
              have hkm : k ≠ mId := fun h => hkmId h.symm
              have hkaL : k ≠ aLast := fun h => haLastk h.symm
              rw [mfind_mupd_ne _ mId k _ hkm, mfind_mupd_self, mfind_mupd_self,
                mfind_mupd_ne _ n k _ hkn, mfind_mupd_ne _ aLast k _ hkaL, hfind]
              rfl
          · rw [endOf_concat]
        · intro hcontra
          exfalso
          apply hkmId
          have hmm : endOf none ((a :: A2) ++ k :: n :: B2) = some mId := by
            rw [endOf_append]
            exact hmId
          rw [hmm] at hcontra
          exact Option.some_inj.mp hcontra

/-! ## Claim C6 machinery: the store invariant through insert and trim -/

theorem memberCond_iff (m : List (String × Entry)) (l : List String) :
    memberCond m l = true ↔
      ∀ p ∈ m, (getSize p.2.payload = 0 → p.1 ∉ l) ∧
        (getSize p.2.payload ≠ 0 → p.1 ∈ l) := by
  unfold memberCond
  rw [List.all_eq_true]
  constructor
  · intro hall p hp
    have hthis := hall p hp
    by_cases hz : getSize p.2.payload = 0
    · rw [if_pos (by simpa using hz)] at hthis
      refine ⟨fun _ => by simpa using hthis, fun hnz => absurd hz hnz⟩
    · rw [if_neg (by simpa using hz)] at hthis
      refine ⟨fun h0 => absurd h0 hz, fun _ => by simpa using hthis⟩
  · intro hall p hp
    obtain ⟨h1, h2⟩ := hall p hp
    by_cases hz : getSize p.2.payload = 0
    · rw [if_pos (by simpa using hz)]
      simpa using h1 hz
    · rw [if_neg (by simpa using hz)]
      simpa using h2 hz

theorem sumSizes_zero (m : List (String × Entry))
    (h : ∀ p ∈ m, getSize p.2.payload = 0) : sumSizes m = 0 := by
  induction m with
  | nil => rfl
  | cons q rest ih =>
    rw [sumSizes, h q (List.mem_cons_self q rest),
      ih fun p hp => h p (List.mem_cons_of_mem q hp)]
    ring

theorem sumSizes_single_key (m : List (String × Entry)) (k : String) (e : Entry) :
    (m.map Prod.fst).Nodup →
    (∀ p ∈ m, p.1 = k ∨ getSize p.2.payload = 0) →
    mfind m k = some e → sumSizes m = getSize e.payload := by
  induction m with
  | nil => intro _ _ h; simp [mfind] at h
  | cons q rest ih =>
    intro hnd hall hfind
    rw [List.map_cons, List.nodup_cons] at hnd
    obtain ⟨hq, hndr⟩ := hnd
    by_cases hqk : q.1 = k
    · simp [mfind, hqk] at hfind
      have hrest0 : ∀ p ∈ rest, getSize p.2.payload = 0 := by
        intro p hp
        rcases hall p (List.mem_cons_of_mem q hp) with h | h
        · exfalso
          apply hq
          rw [hqk, ← h]
          exact List.mem_map_of_mem Prod.fst hp
        · exact h
      rw [sumSizes, sumSizes_zero rest hrest0, hfind]
      ring
    · simp [mfind, hqk] at hfind
      have hq0 : getSize q.2.payload = 0 := by
        rcases hall q (List.mem_cons_self q rest) with h | h
        · exact absurd h hqk
        · exact h
      rw [sumSizes, hq0,
        ih hndr (fun p hp => hall p (List.mem_cons_of_mem q hp)) hfind]
      ring

theorem keys_nodup_mput_fresh {β : Type} (m : List (String × β)) (k : String) (e : β)
    (hnd : (m.map Prod.fst).Nodup) (hab : mfind m k = none) :
    ((mput m k e).map Prod.fst).Nodup := by
  rw [mput_keys_fresh m k e hab, List.nodup_append]
  refine ⟨hnd, List.nodup_singleton k, ?_⟩
  intro x hx
  simp only [List.mem_singleton]
  intro hxk
  rw [mfind_eq_none_iff] at hab
  exact hab (hxk ▸ hx)

theorem storeInvL_safeOnPurge (c : Cache) (v : Val) (w : PurgeReason)
    (l : List String) : storeInvL (safeOnPurge c v w) l = storeInvL c l := by
  unfold safeOnPurge
  split <;> rfl

theorem storeInvL_parts (c : Cache) (l : List String) (h : storeInvL c l = true) :
    chainSeg c.entries none l none = true ∧ c.leastRU = l.head? ∧
    c.mostRU = endOf none l ∧ l.Nodup ∧ (c.entries.map Prod.fst).Nodup ∧
    (∀ p ∈ c.entries, p.2.id = p.1) ∧
    (∀ p ∈ c.entries, (getSize p.2.payload = 0 → p.1 ∉ l) ∧
      (getSize p.2.payload ≠ 0 → p.1 ∈ l)) ∧
    c.size = sumSizes c.entries := by
  unfold storeInvL representsB at h
  simp only [Bool.and_eq_true, beq_iff_eq, decide_eq_true_eq] at h
  obtain ⟨⟨⟨⟨⟨⟨⟨hchain, hleast⟩, hmost⟩, hndl⟩, hknd⟩, hid⟩, hmem⟩, hsize⟩ := h
  refine ⟨hchain, hleast, hmost, hndl, hknd, ?_, (memberCond_iff _ _).mp hmem, by omega⟩
  intro p hp
  have := List.all_eq_true.mp hid p hp
  simpa using this

theorem storeInvL_intro (c : Cache) (l : List String)
    (h1 : chainSeg c.entries none l none = true) (h2 : c.leastRU = l.head?)
    (h3 : c.mostRU = endOf none l) (h4 : l.Nodup)
    (h5 : (c.entries.map Prod.fst).Nodup)
    (h6 : ∀ p ∈ c.entries, p.2.id = p.1)
    (h7 : ∀ p ∈ c.entries, (getSize p.2.payload = 0 → p.1 ∉ l) ∧
      (getSize p.2.payload ≠ 0 → p.1 ∈ l))
    (h8 : c.size = sumSizes c.entries) : storeInvL c l = true := by
  unfold storeInvL representsB
  simp only [Bool.and_eq_true, beq_iff_eq, decide_eq_true_eq]
  refine ⟨⟨⟨⟨⟨⟨⟨h1, h2⟩, h3⟩, h4⟩, h5⟩, ?_⟩, (memberCond_iff _ _).mpr h7⟩, by omega⟩
  rw [List.all_eq_true]
  intro p hp
  simpa using h6 p hp

theorem mupd_forall {β : Type} (m : List (String × β)) (k : String) (f : β → β)
    (P : String → β → Prop) (hf : ∀ k2 x, P k2 x → P k2 (f x))
    (hall : ∀ p ∈ m, P p.1 p.2) :
    ∀ p ∈ mupd m k f, P p.1 p.2 := by
  induction m with
  | nil => intro p hp; simp [mupd] at hp
  | cons q rest ih =>
    intro p hp
    by_cases hq : q.1 = k
    · rw [show mupd (q :: rest) k f = (q.1, f q.2) :: rest from by simp [mupd, hq]] at hp
      rcases List.mem_cons.mp hp with he | he
      · rw [he]
        exact hf q.1 q.2 (hall q (List.mem_cons_self q rest))
      · exact hall p (List.mem_cons_of_mem q he)
    · rw [show mupd (q :: rest) k f = q :: mupd rest k f from by simp [mupd, hq]] at hp
      rcases List.mem_cons.mp hp with he | he
      · rw [he]
        exact hall q (List.mem_cons_self q rest)
      · exact ih (fun p2 hp2 => hall p2 (List.mem_cons_of_mem q hp2)) p he

theorem storeInvL_purge_head (c : Cache) (h : String) (rest : List String) (eh : Entry)
    (hinv : storeInvL c (h :: rest) = true)
    (hfind : mfind c.entries h = some eh) :
    storeInvL (removeEntry c eh) rest = true ∧
    (removeEntry c eh).size = c.size - getSize eh.payload ∧
    (removeEntry c eh).maxSize = c.maxSize ∧
    (removeEntry c eh).entries.length + 1 = c.entries.length ∧
    (∀ x, x ≠ h → (mfind (removeEntry c eh).entries x).map Entry.payload =
      (mfind c.entries x).map Entry.payload) := by
  obtain ⟨hchain, hleast, hmost, hndl, hknd, hid, hmem, hsize⟩ :=
    storeInvL_parts c (h :: rest) hinv
  have hehid : eh.id = h := hid (h, eh) (mfind_mem _ _ _ hfind)
  have hchain2 := hchain
  simp only [chainSeg, hfind, Bool.and_eq_true, beq_iff_eq] at hchain2
  obtain ⟨⟨hoeh, hyeh⟩, htail⟩ := hchain2
  have hhrest : h ∉ rest := (List.nodup_cons.mp hndl).1
  have hndrest : rest.Nodup := (List.nodup_cons.mp hndl).2
  cases rest with
  | nil =>
    have hyeh2 : eh.younger = none := hyeh
    have hre : removeEntry c eh =
        { c with
          entries := mdel c.entries h,
          leastRU := none,
          mostRU := none,
          size := c.size - getSize eh.payload } := by
      unfold removeEntry
      rw [hoeh, hyeh2, hehid]
    rw [hre]
    refine ⟨?_, rfl, rfl, ?_, ?_⟩
    · apply storeInvL_intro
      · rfl
      · rfl
      · rfl
      · exact List.nodup_nil
      · exact keys_nodup_mdel _ _ hknd
      · intro p hp
        exact hid p (mdel_subset _ _ _ hp)
      · intro p hp
        have hpmem := mdel_subset _ _ _ hp
        have hpne : p.1 ≠ h := mdel_key_ne _ _ _ hknd hp ⟨eh, hfind⟩
        obtain ⟨h1, h2⟩ := hmem p hpmem
        refine ⟨fun _ => List.not_mem_nil p.1, fun hnz => ?_⟩
        exfalso
        have hin := h2 hnz
        rw [List.mem_singleton] at hin
        exact hpne hin
      · show c.size - getSize eh.payload = sumSizes (mdel c.entries h)
        rw [sumSizes_mdel _ _ _ hfind]
        omega
    · exact mdel_length _ _ _ hfind
    · intro x hx
      show (mfind (mdel c.entries h) x).map Entry.payload = _
      rw [mfind_mdel_ne _ h x hx]
  | cons r rt =>
    have hyeh2 : eh.younger = some r := hyeh
    have hrh : r ≠ h := fun he => hhrest (by rw [← he]; exact List.mem_cons_self r rt)
    have hre : removeEntry c eh =
        { c with
          entries := mupd (mdel c.entries h) r (withOlder none),
          leastRU := some r,
          size := c.size - getSize eh.payload } := by
      unfold removeEntry
      rw [hoeh, hyeh2, hehid]
    rw [hre]
    refine ⟨?_, rfl, rfl, ?_, ?_⟩
    · apply storeInvL_intro
      · have t0 : chainSeg (mdel c.entries h) (some h) (r :: rt) none = true := by
          rw [chainSeg_congr c.entries _ (r :: rt) (some h) none fun y hy =>
            mfind_mdel_ne _ h y (fun he => hhrest (by rw [← he]; exact hy))]
          exact htail
        exact chainSeg_set_head_older (mdel c.entries h) none r rt (some h) none
          (List.nodup_cons.mp hndrest).1 t0
      · rfl
      · show c.mostRU = endOf none (r :: rt)
        rw [hmost]
        exact endOf_ne_nil (r :: rt) (List.cons_ne_nil r rt) (some h) none
      · exact hndrest
      · rw [mupd_keys]
        exact keys_nodup_mdel _ _ hknd
      · refine mupd_forall _ r (withOlder none) (fun k2 x => x.id = k2) ?_ ?_
        · intro k2 x hx
          simpa using hx
        · intro p hp
          exact hid p (mdel_subset _ _ _ hp)
      · refine mupd_forall _ r (withOlder none)
          (fun k2 x => (getSize x.payload = 0 → k2 ∉ r :: rt) ∧
            (getSize x.payload ≠ 0 → k2 ∈ r :: rt)) ?_ ?_
        · intro k2 x hx
          simpa using hx
        · intro p hpm
          have hpmem := mdel_subset _ _ _ hpm
          have hpne : p.1 ≠ h := mdel_key_ne _ _ _ hknd hpm ⟨eh, hfind⟩
          obtain ⟨h1, h2⟩ := hmem p hpmem
          refine ⟨fun h0 hin => h1 h0 (List.mem_cons_of_mem h hin), fun hnz => ?_⟩
          rcases List.mem_cons.mp (h2 hnz) with he | he
          · exact absurd he hpne
          · exact he
      · show c.size - getSize eh.payload = sumSizes (mupd (mdel c.entries h) r (withOlder none))
        rw [sumSizes_mupd _ _ _ (fun x => withOlder_payload none x),
          sumSizes_mdel _ _ _ hfind]
        omega
    · show (mupd (mdel c.entries h) r (withOlder none)).length + 1 = c.entries.length
      rw [mupd_length]
      exact mdel_length _ _ _ hfind
    · intro x hx
      show (mfind (mupd (mdel c.entries h) r (withOlder none)) x).map Entry.payload = _
      by_cases hxr : x = r
      · subst hxr
        rw [mfind_mupd_self, mfind_mdel_ne _ h x hx]
        cases mfind c.entries x <;> simp [withOlder]
      · rw [mfind_mupd_ne _ r x _ hxr, mfind_mdel_ne _ h x hx]

theorem trimLoop_keeps_last (k : String) :
    ∀ (lrest : List String) (fuel : Nat) (c : Cache),
      storeInvL c (lrest ++ [k]) = true →
      (∀ e, mfind c.entries k = some e → getSize e.payload ≤ c.maxSize) →
      c.entries.length + 1 ≤ fuel →
      ∃ c2, trimLoop fuel c = some c2 ∧
        (∃ l2, storeInvL c2 (l2 ++ [k]) = true) ∧
        (mfind c2.entries k).map Entry.payload =
          (mfind c.entries k).map Entry.payload ∧
        c2.maxSize = c.maxSize := by
  intro lrest
  induction lrest with
  | nil =>
    intro fuel c hinv hcap hfuel
    obtain ⟨hchain, hleast, hmost, hndl, hknd, hid, hmem, hsize⟩ :=
      storeInvL_parts c ([] ++ [k]) hinv
    have hkfind : ∃ ek, mfind c.entries k = some ek := by
      have hs := chainSeg_mem_isSome c.entries ([] ++ [k]) none none k hchain (by simp)
      cases hmf : mfind c.entries k with
      | none => rw [hmf] at hs; simp at hs
      | some ek => exact ⟨ek, rfl⟩
    obtain ⟨ek, hek⟩ := hkfind
    have hnotgt : ¬ c.size > c.maxSize := by
      intro hgt
      have hcapk := hcap ek hek
      have hone : ∀ p ∈ c.entries, p.1 = k ∨ getSize p.2.payload = 0 := by
        intro p hp
        by_cases hz : getSize p.2.payload = 0
        · exact Or.inr hz
        · left
          have hin := (hmem p hp).2 hz
          simpa using hin
      have hsum := sumSizes_single_key c.entries k ek hknd hone hek
      omega
    obtain ⟨f2, rfl⟩ : ∃ f2, fuel = f2 + 1 := by
      cases fuel with
      | zero => exact absurd hfuel (by omega)
      | succ f2 => exact ⟨f2, rfl⟩
    refine ⟨c, ?_, ⟨[], hinv⟩, rfl, rfl⟩
    rw [trimLoop, if_neg hnotgt]
  | cons h t ih =>
    intro fuel c hinv hcap hfuel
    by_cases hgt : c.size > c.maxSize
    · obtain ⟨hchain, hleast, hmost, hndl, hknd, hid, hmem, hsize⟩ :=
        storeInvL_parts c ((h :: t) ++ [k]) hinv
      have hleast2 : c.leastRU = some h := by simpa using hleast
      have hhfind : ∃ eh, mfind c.entries h = some eh := by
        have hs := chainSeg_mem_isSome c.entries ((h :: t) ++ [k]) none none h hchain
          (by simp)
        cases hmf : mfind c.entries h with
        | none => rw [hmf] at hs; simp at hs
        | some eh2 => exact ⟨eh2, rfl⟩
      obtain ⟨eh, heh⟩ := hhfind
      have hkek : ∃ ek, mfind c.entries k = some ek := by
        have hs := chainSeg_mem_isSome c.entries ((h :: t) ++ [k]) none none k hchain
          (by simp)
        cases hmf : mfind c.entries k with
        | none => rw [hmf] at hs; simp at hs
        | some ek => exact ⟨ek, rfl⟩
      obtain ⟨ek, hek⟩ := hkek
      have hkh : k ≠ h := by
        have hnm : h ∉ t ++ [k] := (List.nodup_cons.mp (by simpa using hndl)).1
        intro he
        exact hnm (by
          rw [← he]
          exact List.mem_append_right t (List.mem_singleton.mpr rfl))
      have hinv2 : storeInvL (safeOnPurge c eh.payload PurgeReason.CACHEFULL)
          (h :: (t ++ [k])) = true := by
        rw [storeInvL_safeOnPurge]
        exact hinv
      have hfind2 : mfind (safeOnPurge c eh.payload PurgeReason.CACHEFULL).entries h =
          some eh := by
        rw [safeOnPurge_entries]
        exact heh
      obtain ⟨hinv3, hsize3, hmax3, hlen3, hpres3⟩ :=
        storeInvL_purge_head (safeOnPurge c eh.payload PurgeReason.CACHEFULL) h
          (t ++ [k]) eh hinv2 hfind2
      have hpl : purgeLRU c =
          some (removeEntry (safeOnPurge c eh.payload PurgeReason.CACHEFULL) eh) := by
        simp only [purgeLRU, hleast2, heh]
      obtain ⟨f2, rfl⟩ : ∃ f2, fuel = f2 + 1 := by
        cases fuel with
        | zero => exact absurd hfuel (by omega)
        | succ f2 => exact ⟨f2, rfl⟩
      have hcap3 : ∀ e, mfind (removeEntry (safeOnPurge c eh.payload
          PurgeReason.CACHEFULL) eh).entries k = some e →
          getSize e.payload ≤ (removeEntry (safeOnPurge c eh.payload
            PurgeReason.CACHEFULL) eh).maxSize := by
        intro e he
        have hpp := hpres3 k hkh
        rw [safeOnPurge_entries] at hpp
        rw [he, hek] at hpp
        simp only [Option.map_some'] at hpp
        have hpe : e.payload = ek.payload := Option.some_inj.mp hpp
        rw [hmax3, safeOnPurge_maxSize, hpe]
        exact hcap ek hek
      have hfuel3 : (removeEntry (safeOnPurge c eh.payload
          PurgeReason.CACHEFULL) eh).entries.length + 1 ≤ f2 := by
        have hlen4 : (removeEntry (safeOnPurge c eh.payload
            PurgeReason.CACHEFULL) eh).entries.length + 1 = c.entries.length := by
          rw [hlen3, safeOnPurge_entries]
        omega
      obtain ⟨c2, htrim, hl2, hpres, hmax⟩ :=
        ih f2 (removeEntry (safeOnPurge c eh.payload PurgeReason.CACHEFULL) eh)
          hinv3 hcap3 hfuel3
      refine ⟨c2, ?_, hl2, ?_, ?_⟩
      · rw [trimLoop, if_pos hgt, hpl]
        exact htrim
      · rw [hpres]
        have hpp := hpres3 k hkh
        rw [safeOnPurge_entries] at hpp
        exact hpp
      · rw [hmax, hmax3, safeOnPurge_maxSize]
    · obtain ⟨f2, rfl⟩ : ∃ f2, fuel = f2 + 1 := by
        cases fuel with
        | zero => exact absurd hfuel (by omega)
        | succ f2 => exact ⟨f2, rfl⟩
      refine ⟨c, ?_, ⟨h :: t, hinv⟩, rfl, rfl⟩
      rw [trimLoop, if_neg hgt]

theorem trimCache_keeps_last (k : String) (lrest : List String) (c : Cache)
    (hinv : storeInvL c (lrest ++ [k]) = true)
    (hcap : ∀ e, mfind c.entries k = some e → getSize e.payload ≤ c.maxSize) :
    ∃ c2, trimCache c = some c2 ∧
      (∃ l2, storeInvL c2 (l2 ++ [k]) = true) ∧
      (mfind c2.entries k).map Entry.payload =
        (mfind c.entries k).map Entry.payload ∧
      c2.maxSize = c.maxSize := by
  unfold trimCache
  by_cases hle : c.maxSize ≤ 0
  · rw [if_pos hle]
    exact ⟨c, rfl, ⟨lrest, hinv⟩, rfl, rfl⟩
  · rw [if_neg hle]
    exact trimLoop_keeps_last k lrest (c.entries.length + 1) c hinv hcap (le_refl _)

theorem mput_forall {β : Type} (m : List (String × β)) (k : String) (e : β)
    (P : String → β → Prop) (he : P k e) (hall : ∀ p ∈ m, P p.1 p.2) :
    ∀ p ∈ mput m k e, P p.1 p.2 := by
  induction m with
  | nil =>
    intro p hp
    simp [mput] at hp
    rw [hp]
    exact he
  | cons q rest ih =>
    intro p hp
    by_cases hq : q.1 = k
    · rw [show mput (q :: rest) k e = (k, e) :: rest from by simp [mput, hq]] at hp
      rcases List.mem_cons.mp hp with h2 | h2
      · rw [h2]
        exact he
      · exact hall p (List.mem_cons_of_mem q h2)
    · rw [show mput (q :: rest) k e = q :: mput rest k e from by simp [mput, hq]] at hp
      rcases List.mem_cons.mp hp with h2 | h2
      · rw [h2]
        exact hall q (List.mem_cons_self q rest)
      · exact ih (fun p2 hp2 => hall p2 (List.mem_cons_of_mem q hp2)) p h2

theorem storeInvL_insert_linked (c : Cache) (l : List String) (k : String) (V : Val)
    (hinv : storeInvL c l = true) (habs : mfind c.entries k = none)
    (hz : getSize V ≠ 0) :
    ∃ cPre, directSet c k V = trimCache cPre ∧
      storeInvL cPre (l ++ [k]) = true ∧ cPre.maxSize = c.maxSize ∧
      ∃ eP, mfind cPre.entries k = some eP ∧ eP.payload = V := by
  obtain ⟨hchain, hleast, hmost, hndl, hknd, hid, hmem, hsize⟩ := storeInvL_parts c l hinv
  have hkl : k ∉ l := by
    intro hkin
    have hs := chainSeg_mem_isSome c.entries l none none k hchain hkin
    rw [habs] at hs
    simp at hs
  have hkkeys : k ∉ c.entries.map Prod.fst := (mfind_eq_none_iff _ _).mp habs
  have hidP : ∀ p ∈ mput c.entries k
      { payload := V, id := k, older := none, younger := none },
      p.2.id = p.1 :=
    mput_forall _ k _ (fun k2 (x : Entry) => x.id = k2) rfl hid
  have hndlk : (l ++ [k]).Nodup := by
    rw [List.nodup_append]
    refine ⟨hndl, List.nodup_singleton k, ?_⟩
    intro x hx
    simp only [List.mem_singleton]
    intro hxk
    exact hkl (hxk ▸ hx)
  cases l with
  | nil =>
    have hnilL : c.leastRU = none := by simpa using hleast
    refine ⟨{ c with
        entries := mput c.entries k
          { payload := V, id := k, older := none, younger := none },
        leastRU := some k,
        mostRU := some k,
        size := c.size + getSize V }, ?_, ?_, rfl, ?_⟩
    · simp only [directSet, habs]
      rw [if_neg hz]
      simp only [hnilL]
    · apply storeInvL_intro
      · rw [show ([] : List String) ++ [k] = [k] from rfl, chainSeg_single]
        exact ⟨_, mfind_mput_self _ _ _, rfl, rfl⟩
      · rfl
      · rfl
      · exact hndlk
      · exact keys_nodup_mput_fresh _ _ _ hknd habs
      · exact hidP
      · refine mput_forall _ k _ (fun k2 (x : Entry) =>
          (getSize x.payload = 0 → k2 ∉ [] ++ [k]) ∧
          (getSize x.payload ≠ 0 → k2 ∈ [] ++ [k])) ?_ ?_
        · exact ⟨fun h0 => absurd h0 hz, fun _ => by simp⟩
        · intro p hp
          have hpk : p.1 ≠ k := by
            intro he
            exact hkkeys (he ▸ List.mem_map_of_mem Prod.fst hp)
          refine ⟨fun _ => by simpa using hpk, fun hnz => ?_⟩
          have := (hmem p hp).2 hnz
          simp at this
      · show c.size + getSize V = sumSizes (mput c.entries k _)
        rw [sumSizes_mput_fresh _ _ _ habs]
        have hpv : getSize (Entry.mk V k none none).payload = getSize V := rfl
        omega
    · exact ⟨_, mfind_mput_self _ _ _, rfl⟩
  | cons a l2 =>
    have hleast2 : c.leastRU = some a := by simpa using hleast
    obtain ⟨aL, haL, haLmem⟩ := endOf_mem (a :: l2) (List.cons_ne_nil a l2) none
    have hmost2 : c.mostRU = some aL := by
      rw [hmost]
      exact haL
    have haLk : aL ≠ k := fun he => hkl (he ▸ haLmem)
    have hkaL : k ≠ aL := fun he => haLk he.symm
    refine ⟨{ c with
        entries := mupd (mupd (mput c.entries k
          { payload := V, id := k, older := none, younger := none }) aL
          (withYounger (some k))) k (withOlder (some aL)),
        mostRU := some k,
        size := c.size + getSize V }, ?_, ?_, rfl, ?_⟩
    · simp only [directSet, habs]
      rw [if_neg hz]
      simp only [hleast2, hmost2]
    · apply storeInvL_intro
      · rw [chainSeg_append]
        simp only [Bool.and_eq_true]
        constructor
        · -- the old chain, with the last entry now pointing at k
          have u0 : chainSeg (mput c.entries k
              { payload := V, id := k, older := none, younger := none }) none
              (a :: l2) none = true := by
            rw [chainSeg_congr c.entries _ (a :: l2) none none fun y hy =>
              mfind_mput_ne _ k y _ (fun he => hkl (he ▸ hy))]
            exact hchain
          have u1 := chainSeg_set_last_younger (mput c.entries k
              { payload := V, id := k, older := none, younger := none }) (some k)
              (a :: l2) none none aL hndl (List.cons_ne_nil a l2) haL u0
          rw [chainSeg_congr (mupd (mput c.entries k
              { payload := V, id := k, older := none, younger := none }) aL
              (withYounger (some k))) _ (a :: l2) none (nextOf [k] none) fun y hy =>
            mfind_mupd_ne _ k y _ (fun he => hkl (he ▸ hy))]
          exact u1
        · rw [haL, chainSeg_single]
          refine ⟨withOlder (some aL)
            { payload := V, id := k, older := none, younger := none }, ?_, rfl, rfl⟩
          rw [mfind_mupd_self, mfind_mupd_ne _ aL k _ hkaL, mfind_mput_self]
          rfl
      · simpa using hleast2
      · rw [endOf_concat]
      · exact hndlk
      · rw [mupd_keys, mupd_keys]
        exact keys_nodup_mput_fresh _ _ _ hknd habs
      · refine mupd_forall _ k _ (fun k2 (x : Entry) => x.id = k2)
          (fun k2 x hx => by simpa using hx) ?_
        refine mupd_forall _ aL _ (fun k2 (x : Entry) => x.id = k2)
          (fun k2 x hx => by simpa using hx) ?_
        exact hidP
      · refine mupd_forall _ k _ (fun k2 (x : Entry) =>
          (getSize x.payload = 0 → k2 ∉ (a :: l2) ++ [k]) ∧
          (getSize x.payload ≠ 0 → k2 ∈ (a :: l2) ++ [k]))
          (fun k2 x hx => by simpa using hx) ?_
        refine mupd_forall _ aL _ (fun k2 (x : Entry) =>
          (getSize x.payload = 0 → k2 ∉ (a :: l2) ++ [k]) ∧
          (getSize x.payload ≠ 0 → k2 ∈ (a :: l2) ++ [k]))
          (fun k2 x hx => by simpa using hx) ?_
        refine mput_forall _ k _ (fun k2 (x : Entry) =>
          (getSize x.payload = 0 → k2 ∉ (a :: l2) ++ [k]) ∧
          (getSize x.payload ≠ 0 → k2 ∈ (a :: l2) ++ [k])) ?_ ?_
        · exact ⟨fun h0 => absurd h0 hz,
            fun _ => List.mem_append_right _ (List.mem_singleton.mpr rfl)⟩
        · intro p hp
          have hpk : p.1 ≠ k := by
            intro he
            exact hkkeys (he ▸ List.mem_map_of_mem Prod.fst hp)
          obtain ⟨h1, h2⟩ := hmem p hp
          refine ⟨fun h0 hin => ?_, fun hnz => List.mem_append_left _ (h2 hnz)⟩
          rcases List.mem_append.mp hin with h3 | h3
          · exact h1 h0 h3
          · rw [List.mem_singleton] at h3
            exact hpk h3
      · show c.size + getSize V = sumSizes _
        rw [sumSizes_mupd _ _ _ (fun x => withOlder_payload _ x),
          sumSizes_mupd _ _ _ (fun x => withYounger_payload _ x),
          sumSizes_mput_fresh _ _ _ habs]
        have hpv : getSize (Entry.mk V k none none).payload = getSize V := rfl
        omega
    · refine ⟨withOlder (some aL)
        { payload := V, id := k, older := none, younger := none }, ?_, rfl⟩
      rw [mfind_mupd_self, mfind_mupd_ne _ aL k _ hkaL, mfind_mput_self]
      rfl

/-- Handler returning an oversized value, for the C6 counterexample. -/
def fbig : Handler := fun _ => (some (quiet 9 2), none)

/-- A second handler returning a different value, showing that the second
Get consults the handler again. -/
def fbig2 : Handler := fun _ => (some (quiet 8 2), none)

/-- Claim C6 counterexample: with capacity 1 and a handler returning a
value of size 2, the first Get returns the value with no error but the
value is trimmed away in the same call (it is not in the cache
afterwards), and a second Get invokes the handler again - observable
here because a different handler yields a different value (tag 8, not
9).  The claim as stated (value stored; second Get returns it without
invoking the handler) is therefore false. -/
theorem C6_miss_roundtrip_counterexample :
    (Get (some fbig) (New 1) "x").map
      (fun r => ((mfind r.1.entries "x").isSome, r.2.1.map Val.tag, r.2.2.isNone)) =
      some (false, some 9, true) ∧
    ((Get (some fbig) (New 1) "x").bind fun r => Get (some fbig2) r.1 "x").map
      (fun r => r.2.1.map Val.tag) = some (some 8) := by
  decide

/-- Claim C6 (amended): for a well-formed cache state (store invariant
with recency list `l`), a key absent from the cache and a miss handler
returning value V with no error, provided the size of V is within the
capacity (or the capacity is unbounded), Get stores V under the key and
returns V with no error, and a second Get afterwards returns V for every
installed handler - in particular without invoking the handler again. -/
theorem C6_miss_roundtrip_amended (c : Cache) (l : List String) (k : String)
    (f : Handler) (V : Val)
    (hinv : storeInvL c l = true)
    (habs : mfind c.entries k = none)
    (hf : f k = (some V, none))
    (hcap : getSize V ≤ c.maxSize ∨ c.maxSize ≤ 0) :
    ∃ c2, Get (some f) c k = some (c2, some V, none) ∧
      (∃ e2, mfind c2.entries k = some e2 ∧ e2.payload = V) ∧
      ∀ g, ∃ c3, Get g c2 k = some (c3, some V, none) := by
  by_cases hz : getSize V = 0
  · have hds : directSet c k V =
        some { c with entries := mput c.entries k (Entry.mk V k none none) } := by
      simp only [directSet, habs]
      rw [if_pos hz]
    refine ⟨{ c with entries := mput c.entries k (Entry.mk V k none none) }, ?_, ?_, ?_⟩
    · simp only [Get, habs, handleCacheMiss, hf, hds]
    · exact ⟨Entry.mk V k none none, mfind_mput_self _ _ _, rfl⟩
    · intro g
      refine ⟨{ c with entries := mput c.entries k (Entry.mk V k none none) }, ?_⟩
      have hf2 : mfind (mput c.entries k (Entry.mk V k none none)) k =
          some (Entry.mk V k none none) := mfind_mput_self _ _ _
      simp only [Get, hf2]
      rfl
  · obtain ⟨cPre, hds, hinvPre, hmaxPre, eP, hePfind, hePpayload⟩ :=
      storeInvL_insert_linked c l k V hinv habs hz
    have htrimmed : ∃ c2, trimCache cPre = some c2 ∧
        (∃ l2, storeInvL c2 (l2 ++ [k]) = true) ∧
        (mfind c2.entries k).map Entry.payload =
          (mfind cPre.entries k).map Entry.payload ∧
        c2.maxSize = cPre.maxSize := by
      rcases hcap with hcapL | hcapR
      · refine trimCache_keeps_last k l cPre hinvPre ?_
        intro e he
        rw [hePfind] at he
        rw [← Option.some_inj.mp he, hePpayload, hmaxPre]
        exact hcapL
      · refine ⟨cPre, ?_, ⟨l, hinvPre⟩, rfl, rfl⟩
        unfold trimCache
        rw [if_pos (by rw [hmaxPre]; exact hcapR)]
    obtain ⟨c2, htrim, ⟨l2, hinv2⟩, hpres, hmax⟩ := htrimmed
    have hget1 : Get (some f) c k = some (c2, some V, none) := by
      simp only [Get, habs, handleCacheMiss, hf, hds, htrim]
    have hstored : ∃ e2, mfind c2.entries k = some e2 ∧ e2.payload = V := by
      rw [hePfind] at hpres
      cases hm2 : mfind c2.entries k with
      | none => rw [hm2] at hpres; simp at hpres
      | some e2 =>
        rw [hm2] at hpres
        simp only [Option.map_some'] at hpres
        refine ⟨e2, rfl, ?_⟩
        rw [Option.some_inj.mp hpres, hePpayload]
    refine ⟨c2, hget1, hstored, ?_⟩
    intro g
    obtain ⟨hchain2, _, _, _, _, _, _, _⟩ := storeInvL_parts c2 (l2 ++ [k]) hinv2
    rw [chainSeg_append] at hchain2
    simp only [Bool.and_eq_true] at hchain2
    have hk2 := hchain2.2
    rw [chainSeg_single] at hk2
    obtain ⟨e2, he2find, he2older, he2younger⟩ := hk2
    refine ⟨c2, ?_⟩
    simp only [Get, he2find]
    rw [if_pos he2younger]
    have hpe : e2.payload = V := by
      obtain ⟨e2b, he2b, he2bp⟩ := hstored
      have he2e : e2 = e2b := by
        rw [he2find] at he2b
        exact Option.some_inj.mp he2b
      rw [he2e]
      exact he2bp
    rw [hpe]

/-- Handler for the C6 witness. -/
def fw6 : Handler := fun _ => (some (quiet 7 1), none)

theorem C6_miss_roundtrip_amended_witness :
    storeInvL (New 10) [] = true ∧ mfind (New 10).entries "x" = none ∧
    fw6 "x" = (some (quiet 7 1), none) ∧
    (getSize (quiet 7 1) ≤ (New 10).maxSize ∨ (New 10).maxSize ≤ 0) ∧
    (∃ c2, Get (some fw6) (New 10) "x" = some (c2, some (quiet 7 1), none) ∧
      (∃ e2, mfind c2.entries "x" = some e2 ∧ e2.payload = quiet 7 1) ∧
      ∀ g, ∃ c3, Get g c2 "x" = some (c3, some (quiet 7 1), none)) :=
  ⟨by decide, by decide, rfl, by decide,
    C6_miss_roundtrip_amended (New 10) [] "x" fw6 (quiet 7 1) (by decide) (by decide)
      rfl (by decide)⟩

/-- A concrete two-entry cache for the C5 witness: the recency list is
[a, b] with b most recently used. -/
def cW : Cache :=
  { size := 2, maxSize := 10,
    entries := [("a", Entry.mk (quiet 1 1) "a" none (some "b")),
                ("b", Entry.mk (quiet 2 1) "b" (some "a") none)],
    mostRU := some "b", leastRU := some "a", purgeLog := [] }

theorem C5_get_recency_witness :
    representsB cW ["a", "b"] = true ∧ (["a", "b"] : List String).Nodup ∧
    "a" ∈ (["a", "b"] : List String) ∧
    (∃ c2 e, mfind cW.entries "a" = some e ∧
      Get none cW "a" = some (c2, some e.payload, none) ∧
      representsB c2 ((["a", "b"] : List String).erase "a" ++ ["a"]) = true ∧
      (endOf none ["a", "b"] = some "a" → c2 = cW)) :=
  ⟨by decide, by decide, by decide,
    C5_get_recency none cW ["a", "b"] "a" (by decide) (by decide) (by decide)⟩

end LruCache
